import Mathlib

/-!
Verification of the `shared_secrets` library (Shamir secret sharing over a
prime field).  The development shallowly embeds the arbitrary-precision
modular-integer engine (`src/math/modular.rs`), the polynomial layer
(`src/math/polynomial.rs`) and the split/recover protocol
(`src/crypto/shamir.rs`) and proves the specification claims about them.

Conventions of the embedding:
* `rug::Integer` values are modelled as `ℤ` (arbitrary precision, signed);
  byte and digit strings as `List ℕ`.
* A Rust panic is modelled as `none` / a `RunResult.panicked` outcome, a
  recoverable `Result::Err` as `Except.error`.
* The random generator is modelled as a stream of naturals together with a
  cursor; rejection-sampling loops carry explicit fuel, `RunResult.timeout`
  standing for a non-terminating run.
-/

set_option maxRecDepth 40000

/-! ## Fast modular exponentiation, used to check primality certificates -/

/-- Modular exponentiation by repeated squaring, with explicit fuel. -/
def powMod (n : ℕ) : ℕ → ℕ → ℕ → ℕ
  | 0, _, _ => 1 % n
  | fuel + 1, b, e =>
    if e = 0 then 1 % n
    else
      let h := powMod n fuel b (e / 2)
      if e % 2 = 0 then h * h % n else h * h % n * b % n

/-- Extended Euclid with explicit fuel: `egcd fuel a b = (g, x, y)` with
`g = gcd a b` and `a*x + b*y = g` whenever `b ≤ fuel`. -/
def egcd : ℕ → ℕ → ℕ → ℕ × ℤ × ℤ
  | 0, a, _ => (a, 1, 0)
  | fuel + 1, a, b =>
    if b = 0 then (a, 1, 0)
    else
      let r := egcd fuel b (a % b)
      (r.1, r.2.2, r.2.1 - ((a / b : ℕ) : ℤ) * r.2.2)

/-- Model of `rug::Integer::invert(self, modulo)`: the inverse of `v`
modulo `p` in `[0, p)` when it exists, `none` otherwise. -/
def invertInt (v : ℤ) (p : ℕ) : Option ℕ :=
  let a := (v % (p : ℤ)).toNat
  let r := egcd p a p
  if r.1 = 1 then some ((r.2.1 % (p : ℤ)).toNat) else none

/-! ## Positional digit strings

`natToDigits r fuel v` is the minimal base-`r` representation of `v`
(most significant digit first, empty for `0`), provided `v ≤ fuel`. -/

def natToDigits (radix : ℕ) : ℕ → ℕ → List ℕ
  | 0, _ => []
  | fuel + 1, v => if v = 0 then [] else natToDigits radix fuel (v / radix) ++ [v % radix]

/-- Model of `rug`'s `to_string_radix` on a non-negative value: minimal
digits, a single `0` digit for zero. -/
def toStringRadix (v : ℕ) (radix : ℕ) : List ℕ :=
  if v = 0 then [0] else natToDigits radix v v

/-- Reads a digit string (most significant first) back as a natural. -/
def digitsToNat (radix : ℕ) (ds : List ℕ) : ℕ :=
  ds.foldl (fun acc d => acc * radix + d) 0

theorem powMod_eq (n : ℕ) :
    ∀ fuel b e, e < 2 ^ fuel → powMod n fuel b e = b ^ e % n := by
  intro fuel
  induction fuel with
  | zero =>
    intro b e he
    have h0 : e = 0 := by simpa using he
    subst h0
    simp [powMod]
  | succ f ih =>
    intro b e he
    by_cases h0 : e = 0
    · subst h0; simp [powMod]
    · have hdiv : e / 2 < 2 ^ f := by
        rw [Nat.div_lt_iff_lt_mul (by norm_num)]
        calc e < 2 ^ (f + 1) := he
          _ = 2 ^ f * 2 := by ring
      have hrec := ih b (e / 2) hdiv
      by_cases hpar : e % 2 = 0
      · have hsplit : e = e / 2 + e / 2 := by omega
        simp only [powMod, h0, if_false, hpar, if_true]
        rw [hrec, ← Nat.mul_mod]
        conv_rhs => rw [hsplit, pow_add]
      · have hsplit : e = e / 2 + e / 2 + 1 := by omega
        simp only [powMod, h0, if_false, hpar]
        rw [hrec, ← Nat.mul_mod]
        conv_rhs => rw [hsplit, pow_add, pow_add, pow_one]
        generalize b ^ (e / 2) = x
        conv_lhs => rw [Nat.mul_mod]
        conv_rhs => rw [Nat.mul_mod]
        have hxx : x * x % n % n = x * x % n := Nat.mod_mod_of_dvd _ dvd_rfl
        rw [hxx]

theorem egcd_spec :
    ∀ fuel a b, b ≤ fuel →
      (egcd fuel a b).1 = Nat.gcd a b ∧
      (a : ℤ) * (egcd fuel a b).2.1 + (b : ℤ) * (egcd fuel a b).2.2 =
        ((egcd fuel a b).1 : ℤ) := by
  intro fuel
  induction fuel with
  | zero =>
    intro a b hb
    have h0 : b = 0 := Nat.le_zero.mp hb
    subst h0
    simp [egcd]
  | succ f ih =>
    intro a b hb
    by_cases hbz : b = 0
    · subst hbz; simp [egcd]
    · have hmod : a % b < b := Nat.mod_lt a (Nat.pos_of_ne_zero hbz)
      have hle : a % b ≤ f := by omega
      have hgr : Nat.gcd b (a % b) = Nat.gcd a b := by
        rw [Nat.gcd_comm b (a % b), ← Nat.gcd_rec, Nat.gcd_comm]
      obtain ⟨hg, hbez⟩ := ih b (a % b) hle
      have hcast : ((a % b : ℕ) : ℤ) = (a : ℤ) - (b : ℤ) * ((a / b : ℕ) : ℤ) := by
        have hmd := Nat.mod_add_div a b
        omega
      rw [hcast] at hbez
      constructor
      · simp only [egcd, hbz, if_false]
        rw [hg, hgr]
      · simp only [egcd, hbz, if_false]
        rw [hg, hgr] at *
        linear_combination hbez

theorem invertInt_def (v : ℤ) (p : ℕ) :
    invertInt v p =
      if (egcd p ((v % (p : ℤ)).toNat) p).1 = 1
      then some (((egcd p ((v % (p : ℤ)).toNat) p).2.1 % (p : ℤ)).toNat)
      else none := rfl

theorem invertInt_some (v : ℤ) (p : ℕ) (hp : 0 < p) (w : ℕ)
    (h : invertInt v p = some w) :
    w < p ∧ ((w : ℤ) * v) % (p : ℤ) = 1 % (p : ℤ) := by
  obtain ⟨hg, hbez⟩ := egcd_spec p ((v % (p : ℤ)).toNat) p le_rfl
  rw [invertInt_def] at h
  by_cases hone : (egcd p ((v % (p : ℤ)).toNat) p).1 = 1
  · simp only [hone, if_true, Option.some.injEq] at h
    have hpz : (p : ℤ) ≠ 0 := by exact_mod_cast hp.ne.symm
    have hx0 : 0 ≤ (egcd p ((v % (p : ℤ)).toNat) p).2.1 % (p : ℤ) :=
      Int.emod_nonneg _ hpz
    have hx1 : (egcd p ((v % (p : ℤ)).toNat) p).2.1 % (p : ℤ) < (p : ℤ) :=
      Int.emod_lt_of_pos _ (by exact_mod_cast hp)
    have hwx : (w : ℤ) = (egcd p ((v % (p : ℤ)).toNat) p).2.1 % (p : ℤ) := by
      rw [← h, Int.toNat_of_nonneg hx0]
    constructor
    · have hwp : (w : ℤ) < (p : ℤ) := by rw [hwx]; exact hx1
      exact_mod_cast hwp
    · have hva : 0 ≤ v % (p : ℤ) := Int.emod_nonneg _ hpz
      have hacast : (((v % (p : ℤ)).toNat : ℕ) : ℤ) = v % (p : ℤ) :=
        Int.toNat_of_nonneg hva
      have h1 : (w : ℤ) ≡ (egcd p ((v % (p : ℤ)).toNat) p).2.1 [ZMOD (p : ℤ)] := by
        show (w : ℤ) % (p : ℤ) = _ % (p : ℤ)
        rw [hwx]
        exact Int.emod_emod_of_dvd _ dvd_rfl
      have h2 : v ≡ (((v % (p : ℤ)).toNat : ℕ) : ℤ) [ZMOD (p : ℤ)] := by
        show v % (p : ℤ) = _ % (p : ℤ)
        rw [hacast]
        exact (Int.emod_emod_of_dvd _ dvd_rfl).symm
      have h3 := h1.mul h2
      have h4 : (egcd p ((v % (p : ℤ)).toNat) p).2.1 * (((v % (p : ℤ)).toNat : ℕ) : ℤ) ≡
          1 [ZMOD (p : ℤ)] := by
        rw [Int.ModEq]
        rw [hone] at hbez
        have hsub : (egcd p ((v % (p : ℤ)).toNat) p).2.1 * (((v % (p : ℤ)).toNat : ℕ) : ℤ) =
            1 - (p : ℤ) * (egcd p ((v % (p : ℤ)).toNat) p).2.2 := by
          push_cast at hbez ⊢; linarith
        rw [hsub]
        simp [Int.sub_emod, Int.mul_emod_right]
      exact h3.trans h4
  · simp [hone] at h

theorem invertInt_none_iff (v : ℤ) (p : ℕ) :
    invertInt v p = none ↔ Nat.gcd (v % (p : ℤ)).toNat p ≠ 1 := by
  rw [invertInt_def, (egcd_spec p ((v % (p : ℤ)).toNat) p le_rfl).1]
  split_ifs with h <;> simp [h]

theorem invertInt_isSome_of_prime (p : ℕ) (hp : p.Prime) (v : ℤ)
    (hv : v % (p : ℤ) ≠ 0) : ∃ w, invertInt v p = some w := by
  have hppos : 0 < p := hp.pos
  have hpz : (p : ℤ) ≠ 0 := by exact_mod_cast hppos.ne.symm
  have hva : 0 ≤ v % (p : ℤ) := Int.emod_nonneg _ hpz
  have hvb : v % (p : ℤ) < (p : ℤ) := Int.emod_lt_of_pos _ (by exact_mod_cast hppos)
  have ha0 : 0 < (v % (p : ℤ)).toNat := by omega
  have hap : (v % (p : ℤ)).toNat < p := by omega
  have hnd : ¬ p ∣ (v % (p : ℤ)).toNat := fun hd =>
    absurd (Nat.le_of_dvd ha0 hd) (not_le.mpr hap)
  have hcop : Nat.gcd ((v % (p : ℤ)).toNat) p = 1 := Nat.Coprime.gcd_eq_one
    (Nat.coprime_comm.mp ((Nat.Prime.coprime_iff_not_dvd hp).mpr hnd))
  refine ⟨((egcd p ((v % (p : ℤ)).toNat) p).2.1 % (p : ℤ)).toNat, ?_⟩
  rw [invertInt_def, (egcd_spec p ((v % (p : ℤ)).toNat) p le_rfl).1]
  simp [hcop]

theorem natToDigits_zero (radix : ℕ) : ∀ fuel, natToDigits radix fuel 0 = [] := by
  intro fuel
  cases fuel <;> simp [natToDigits]

theorem natToDigits_digit_lt (radix : ℕ) (hr : 0 < radix) :
    ∀ fuel v d, d ∈ natToDigits radix fuel v → d < radix := by
  intro fuel
  induction fuel with
  | zero => intro v d hd; simp [natToDigits] at hd
  | succ f ih =>
    intro v d hd
    by_cases hv : v = 0
    · subst hv; simp [natToDigits] at hd
    · simp only [natToDigits, hv, if_false, List.mem_append, List.mem_singleton] at hd
      rcases hd with hd | hd
      · exact ih _ _ hd
      · subst hd; exact Nat.mod_lt _ hr

theorem digitsToNat_append_last (radix : ℕ) (ds : List ℕ) (d : ℕ) :
    digitsToNat radix (ds ++ [d]) = digitsToNat radix ds * radix + d := by
  unfold digitsToNat
  rw [List.foldl_append]
  rfl

theorem digitsToNat_natToDigits (radix : ℕ) (hr : 2 ≤ radix) :
    ∀ fuel v, v ≤ fuel → digitsToNat radix (natToDigits radix fuel v) = v := by
  intro fuel
  induction fuel with
  | zero =>
    intro v hv
    have hv0 : v = 0 := Nat.le_zero.mp hv
    subst hv0
    simp [natToDigits, digitsToNat]
  | succ f ih =>
    intro v hv
    by_cases hvz : v = 0
    · subst hvz; simp [natToDigits, digitsToNat]
    · simp only [natToDigits, hvz, if_false]
      rw [digitsToNat_append_last]
      have hvr : v / radix < v := Nat.div_lt_self (Nat.pos_of_ne_zero hvz) (by omega)
      rw [ih (v / radix) (by omega), Nat.mul_comm]
      exact Nat.div_add_mod v radix

theorem foldl_digits_lt (radix : ℕ) (hr : 0 < radix) :
    ∀ ds : List ℕ, (∀ d ∈ ds, d < radix) → ∀ acc,
      List.foldl (fun a d => a * radix + d) acc ds < (acc + 1) * radix ^ ds.length := by
  intro ds
  induction ds with
  | nil => intro _ acc; simpa using Nat.lt_succ_self acc
  | cons d t ih =>
    intro hd acc
    simp only [List.foldl_cons, List.length_cons]
    have h1 := ih (fun x hx => hd x (List.mem_cons_of_mem d hx)) (acc * radix + d)
    have hdr : d < radix := hd d (List.mem_cons_self d t)
    have h2 : (acc * radix + d + 1) ≤ (acc + 1) * radix := by
      have hx : (acc + 1) * radix = acc * radix + radix := by ring
      omega
    calc List.foldl (fun a d => a * radix + d) (acc * radix + d) t
        < (acc * radix + d + 1) * radix ^ t.length := h1
      _ ≤ (acc + 1) * radix * radix ^ t.length :=
          Nat.mul_le_mul_right _ h2
      _ = (acc + 1) * radix ^ (t.length + 1) := by ring

theorem digitsToNat_lt_pow (radix : ℕ) (hr : 0 < radix) (ds : List ℕ)
    (hd : ∀ d ∈ ds, d < radix) : digitsToNat radix ds < radix ^ ds.length := by
  have h := foldl_digits_lt radix hr ds hd 0
  unfold digitsToNat
  omega

theorem foldl_digits_ge_acc (radix : ℕ) (hr : 1 ≤ radix) :
    ∀ (ds : List ℕ) (acc : ℕ), acc ≤ List.foldl (fun a d => a * radix + d) acc ds := by
  intro ds
  induction ds with
  | nil => intro acc; simp
  | cons d t ih =>
    intro acc
    simp only [List.foldl_cons]
    have h1 : acc * 1 ≤ acc * radix := Nat.mul_le_mul_left acc hr
    calc acc ≤ acc * radix + d := by omega
      _ ≤ _ := ih (acc * radix + d)

theorem digitsToNat_pos (radix : ℕ) (hr : 2 ≤ radix) (h : ℕ) (t : List ℕ)
    (hh : h ≠ 0) : 0 < digitsToNat radix (h :: t) := by
  unfold digitsToNat
  simp only [List.foldl_cons]
  have h0 : (0 : ℕ) * radix + h = h := by ring
  rw [h0]
  calc 0 < h := Nat.pos_of_ne_zero hh
    _ ≤ _ := foldl_digits_ge_acc radix (by omega) t h

theorem natToDigits_digitsToNat (radix : ℕ) (hr : 2 ≤ radix) :
    ∀ ds : List ℕ, (∀ d ∈ ds, d < radix) → ds.head? ≠ some 0 →
      ∀ fuel, digitsToNat radix ds ≤ fuel →
        natToDigits radix fuel (digitsToNat radix ds) = ds := by
  intro ds
  induction ds using List.reverseRecOn with
  | nil => intro _ _ fuel _; simp [digitsToNat, natToDigits_zero]
  | append_singleton init d ih =>
    intro hlt hhead fuel hfuel
    rw [digitsToNat_append_last] at hfuel ⊢
    have hdlt : d < radix := hlt d (by simp)
    have hinitlt : ∀ x ∈ init, x < radix := fun x hx => hlt x (by simp [hx])
    rcases init with _ | ⟨h0, t0⟩
    · have hd0 : d ≠ 0 := by
        simp only [List.nil_append, List.head?_cons] at hhead
        intro hc; exact hhead (by rw [hc])
      have hw0 : digitsToNat radix [] = 0 := by simp [digitsToNat]
      rw [hw0] at hfuel ⊢
      have hvpos : 0 < 0 * radix + d := by omega
      cases fuel with
      | zero => omega
      | succ f =>
        have hvz : 0 * radix + d ≠ 0 := by omega
        simp only [natToDigits, hvz, if_false]
        have hv : (0 : ℕ) * radix + d = d := by ring
        rw [hv, Nat.div_eq_of_lt hdlt, Nat.mod_eq_of_lt hdlt, natToDigits_zero]
    · have hh0 : h0 ≠ 0 := by
        simp only [List.cons_append, List.head?_cons] at hhead
        intro hc; exact hhead (by rw [hc])
      have hw : 0 < digitsToNat radix (h0 :: t0) := digitsToNat_pos radix hr h0 t0 hh0
      have hwmul : digitsToNat radix (h0 :: t0) * 2 ≤ digitsToNat radix (h0 :: t0) * radix :=
        Nat.mul_le_mul_left _ hr
      cases fuel with
      | zero => omega
      | succ f =>
        have hvz : digitsToNat radix (h0 :: t0) * radix + d ≠ 0 := by omega
        simp only [natToDigits, hvz, if_false]
        have hcomm : digitsToNat radix (h0 :: t0) * radix + d =
            d + digitsToNat radix (h0 :: t0) * radix := by ring
        have hmod : (digitsToNat radix (h0 :: t0) * radix + d) % radix = d := by
          rw [hcomm, Nat.add_mul_mod_self_right, Nat.mod_eq_of_lt hdlt]
        have hdiv : (digitsToNat radix (h0 :: t0) * radix + d) / radix =
            digitsToNat radix (h0 :: t0) := by
          rw [hcomm, Nat.add_mul_div_right _ _ (by omega : 0 < radix),
            Nat.div_eq_of_lt hdlt]
          omega
        rw [hmod, hdiv, ih hinitlt (by simpa using hhead) f (by omega)]

/-! ## Primality of the hard-coded 257-bit modulus, via Lucas--Pratt certificate chains -/

def certProd (l : List (ℕ × ℕ)) : ℕ := (l.map fun qe => qe.1 ^ qe.2).prod

theorem prime_mem_of_dvd_certProd :
    ∀ l : List (ℕ × ℕ), (∀ qe ∈ l, Nat.Prime qe.1) →
      ∀ r : ℕ, r.Prime → r ∣ certProd l → ∃ qe ∈ l, r = qe.1 := by
  intro l
  induction l with
  | nil =>
    intro _ r hr hdvd
    simp only [certProd, List.map_nil, List.prod_nil, Nat.dvd_one] at hdvd
    exact absurd hdvd hr.ne_one
  | cons qe t ih =>
    intro hl r hr hdvd
    simp only [certProd, List.map_cons, List.prod_cons] at hdvd
    rcases (Nat.Prime.dvd_mul hr).mp hdvd with h | h
    · have h1 : r ∣ qe.1 := hr.dvd_of_dvd_pow h
      have hq : Nat.Prime qe.1 := hl qe (List.mem_cons_self qe t)
      exact ⟨qe, List.mem_cons_self qe t, (Nat.prime_dvd_prime_iff_eq hr hq).mp h1⟩
    · obtain ⟨qe2, hm, he⟩ := ih (fun x hx => hl x (List.mem_cons_of_mem qe hx)) r hr h
      exact ⟨qe2, List.mem_cons_of_mem qe hm, he⟩

theorem prime_of_lucas_cert (p a fuel : ℕ) (l : List (ℕ × ℕ))
    (h2 : 2 ≤ p) (hsz : p - 1 < 2 ^ fuel)
    (hfact : p - 1 = certProd l)
    (hq : ∀ qe ∈ l, Nat.Prime qe.1)
    (hferm : powMod p fuel a (p - 1) = 1 % p)
    (hroot : ∀ qe ∈ l, ¬ powMod p fuel a ((p - 1) / qe.1) = 1 % p) :
    Nat.Prime p := by
  have hcast : ∀ e : ℕ, e < 2 ^ fuel →
      (((a ^ e : ℕ) : ZMod p) = ((1 : ℕ) : ZMod p) ↔ powMod p fuel a e = 1 % p) := by
    intro e he
    rw [ZMod.natCast_eq_natCast_iff', powMod_eq p fuel a e he]
  have ha : (a : ZMod p) ^ (p - 1) = 1 := by
    have h := (hcast (p - 1) hsz).mpr hferm
    push_cast at h
    exact h
  refine lucas_primality p (a : ZMod p) ha ?_
  intro q hq1 hdvd heq
  rw [hfact] at hdvd
  obtain ⟨qe, hm, rfl⟩ := prime_mem_of_dvd_certProd l hq q hq1 hdvd
  refine hroot qe hm ?_
  have hlt : (p - 1) / qe.1 < 2 ^ fuel := lt_of_le_of_lt (Nat.div_le_self _ _) hsz
  apply (hcast _ hlt).mp
  push_cast
  exact heq

theorem prime117811 : Nat.Prime 117811 := by
  refine prime_of_lucas_cert 117811 2 300
    [(2, 1), (3, 2), (5, 1), (7, 1), (11, 1), (17, 1)] (by norm_num) (by decide) (by decide) ?_ (by decide) (by decide)
  intro qe h
  simp only [List.mem_cons, List.not_mem_nil, or_false] at h
  rcases h with rfl | rfl | rfl | rfl | rfl | rfl
  · norm_num
  · norm_num
  · norm_num
  · norm_num
  · norm_num
  · norm_num

theorem prime635707 : Nat.Prime 635707 := by
  refine prime_of_lucas_cert 635707 2 300
    [(2, 1), (3, 2), (35317, 1)] (by norm_num) (by decide) (by decide) ?_ (by decide) (by decide)
  intro qe h
  simp only [List.mem_cons, List.not_mem_nil, or_false] at h
  rcases h with rfl | rfl | rfl
  · norm_num
  · norm_num
  · norm_num

theorem prime960637 : Nat.Prime 960637 := by
  refine prime_of_lucas_cert 960637 2 300
    [(2, 2), (3, 1), (17, 2), (277, 1)] (by norm_num) (by decide) (by decide) ?_ (by decide) (by decide)
  intro qe h
  simp only [List.mem_cons, List.not_mem_nil, or_false] at h
  rcases h with rfl | rfl | rfl | rfl
  · norm_num
  · norm_num
  · norm_num
  · norm_num

theorem prime2297593 : Nat.Prime 2297593 := by
  refine prime_of_lucas_cert 2297593 5 300
    [(2, 3), (3, 3), (11, 1), (967, 1)] (by norm_num) (by decide) (by decide) ?_ (by decide) (by decide)
  intro qe h
  simp only [List.mem_cons, List.not_mem_nil, or_false] at h
  rcases h with rfl | rfl | rfl | rfl
  · norm_num
  · norm_num
  · norm_num
  · norm_num

theorem prime4464877 : Nat.Prime 4464877 := by
  refine prime_of_lucas_cert 4464877 5 300
    [(2, 2), (3, 1), (13, 1), (28621, 1)] (by norm_num) (by decide) (by decide) ?_ (by decide) (by decide)
  intro qe h
  simp only [List.mem_cons, List.not_mem_nil, or_false] at h
  rcases h with rfl | rfl | rfl | rfl
  · norm_num
  · norm_num
  · norm_num
  · norm_num

theorem prime24454153 : Nat.Prime 24454153 := by
  refine prime_of_lucas_cert 24454153 5 300
    [(2, 3), (3, 2), (23, 1), (14767, 1)] (by norm_num) (by decide) (by decide) ?_ (by decide) (by decide)
  intro qe h
  simp only [List.mem_cons, List.not_mem_nil, or_false] at h
  rcases h with rfl | rfl | rfl | rfl
  · norm_num
  · norm_num
  · norm_num
  · norm_num

theorem prime860169809 : Nat.Prime 860169809 := by
  refine prime_of_lucas_cert 860169809 3 300
    [(2, 4), (17, 1), (139, 1), (22751, 1)] (by norm_num) (by decide) (by decide) ?_ (by decide) (by decide)
  intro qe h
  simp only [List.mem_cons, List.not_mem_nil, or_false] at h
  rcases h with rfl | rfl | rfl | rfl
  · norm_num
  · norm_num
  · norm_num
  · norm_num

theorem prime1720339619 : Nat.Prime 1720339619 := by
  refine prime_of_lucas_cert 1720339619 2 300
    [(2, 1), (860169809, 1)] (by norm_num) (by decide) (by decide) ?_ (by decide) (by decide)
  intro qe h
  simp only [List.mem_cons, List.not_mem_nil, or_false] at h
  rcases h with rfl | rfl
  · norm_num
  · exact prime860169809

theorem prime2708996341 : Nat.Prime 2708996341 := by
  refine prime_of_lucas_cert 2708996341 2 300
    [(2, 2), (3, 1), (5, 1), (47, 1), (960637, 1)] (by norm_num) (by decide) (by decide) ?_ (by decide) (by decide)
  intro qe h
  simp only [List.mem_cons, List.not_mem_nil, or_false] at h
  rcases h with rfl | rfl | rfl | rfl | rfl
  · norm_num
  · norm_num
  · norm_num
  · norm_num
  · exact prime960637

theorem prime6847162841 : Nat.Prime 6847162841 := by
  refine prime_of_lucas_cert 6847162841 6 300
    [(2, 3), (5, 1), (7, 1), (24454153, 1)] (by norm_num) (by decide) (by decide) ?_ (by decide) (by decide)
  intro qe h
  simp only [List.mem_cons, List.not_mem_nil, or_false] at h
  rcases h with rfl | rfl | rfl | rfl
  · norm_num
  · norm_num
  · norm_num
  · exact prime24454153

theorem prime1348078992787 : Nat.Prime 1348078992787 := by
  refine prime_of_lucas_cert 1348078992787 2 300
    [(2, 1), (3, 2), (117811, 1), (635707, 1)] (by norm_num) (by decide) (by decide) ?_ (by decide) (by decide)
  intro qe h
  simp only [List.mem_cons, List.not_mem_nil, or_false] at h
  rcases h with rfl | rfl | rfl | rfl
  · norm_num
  · norm_num
  · exact prime117811
  · exact prime635707

theorem prime393479968695952911778851722879 : Nat.Prime 393479968695952911778851722879 := by
  refine prime_of_lucas_cert 393479968695952911778851722879 7 300
    [(2, 1), (19, 1), (4464877, 1), (1720339619, 1), (1348078992787, 1)] (by norm_num) (by decide) (by decide) ?_ (by decide) (by decide)
  intro qe h
  simp only [List.mem_cons, List.not_mem_nil, or_false] at h
  rcases h with rfl | rfl | rfl | rfl | rfl
  · norm_num
  · norm_num
  · exact prime4464877
  · exact prime1720339619
  · exact prime1348078992787

theorem prime128705835328563219442540253495117583242026627406673023 : Nat.Prime 128705835328563219442540253495117583242026627406673023 := by
  refine prime_of_lucas_cert 128705835328563219442540253495117583242026627406673023 5 300
    [(2, 1), (797, 1), (32969, 1), (2297593, 1), (2708996341, 1), (393479968695952911778851722879, 1)] (by norm_num) (by decide) (by decide) ?_ (by decide) (by decide)
  intro qe h
  simp only [List.mem_cons, List.not_mem_nil, or_false] at h
  rcases h with rfl | rfl | rfl | rfl | rfl | rfl
  · norm_num
  · norm_num
  · norm_num
  · exact prime2297593
  · exact prime2708996341
  · exact prime393479968695952911778851722879

theorem prime75164207831880920154443508041148668613343550405497045433 : Nat.Prime 75164207831880920154443508041148668613343550405497045433 := by
  refine prime_of_lucas_cert 75164207831880920154443508041148668613343550405497045433 3 300
    [(2, 3), (73, 1), (128705835328563219442540253495117583242026627406673023, 1)] (by norm_num) (by decide) (by decide) ?_ (by decide) (by decide)
  intro qe h
  simp only [List.mem_cons, List.not_mem_nil, or_false] at h
  rcases h with rfl | rfl | rfl
  · norm_num
  · norm_num
  · exact prime128705835328563219442540253495117583242026627406673023

theorem prime62518280849413946623979314474273652011160178111074600521170349 : Nat.Prime 62518280849413946623979314474273652011160178111074600521170349 := by
  refine prime_of_lucas_cert 62518280849413946623979314474273652011160178111074600521170349 2 300
    [(2, 2), (3, 1), (69313, 1), (75164207831880920154443508041148668613343550405497045433, 1)] (by norm_num) (by decide) (by decide) ?_ (by decide) (by decide)
  intro qe h
  simp only [List.mem_cons, List.not_mem_nil, or_false] at h
  rcases h with rfl | rfl | rfl | rfl
  · norm_num
  · norm_num
  · norm_num
  · exact prime75164207831880920154443508041148668613343550405497045433

theorem prime208351617316091241234326746312124448251235562226470491514186331217050270460481 : Nat.Prime 208351617316091241234326746312124448251235562226470491514186331217050270460481 := by
  refine prime_of_lucas_cert 208351617316091241234326746312124448251235562226470491514186331217050270460481 29 300
    [(2, 6), (3, 2), (5, 1), (13, 2), (6847162841, 1), (62518280849413946623979314474273652011160178111074600521170349, 1)] (by norm_num) (by decide) (by decide) ?_ (by decide) (by decide)
  intro qe h
  simp only [List.mem_cons, List.not_mem_nil, or_false] at h
  rcases h with rfl | rfl | rfl | rfl | rfl | rfl
  · norm_num
  · norm_num
  · norm_num
  · norm_num
  · exact prime6847162841
  · exact prime62518280849413946623979314474273652011160178111074600521170349

/-! ## The embedded model of the library

Everything in the `SharedSecrets` namespace is translated from the Rust
sources of the repository: `src/math/prime.rs`, `src/math/random.rs`,
`src/math/modular.rs`, `src/math/polynomial.rs` and `src/crypto/shamir.rs`. -/

namespace SharedSecrets

/-- Model of `math::prime::Prime`.  `PartialEq` of the Rust type compares
the wrapped values, so a `&Prime` reference is modelled by the wrapped
value itself. -/
structure Prime where
  value : ℕ
deriving DecidableEq, Repr

/-- Model of `math::random::Rng`: a stream of naturals plus a cursor.
`random_below` consumes the next stream element reduced below the bound;
every sequence of draws of the real generator is realised by some stream. -/
structure Rng where
  seq : ℕ → ℕ
  idx : ℕ

/-- Model of `math::modular::ModInteger`: the wrapped `rug::Integer` value
plus the referenced `Prime`.  Derived equality coincides with the Rust
`PartialEq` (value and prime both equal). -/
structure ModInteger where
  value : ℤ
  prime : Prime
deriving DecidableEq, Repr

/-- `ModInteger::random`: uniform draw below the prime. -/
def ModInteger.random (prime : Prime) (rng : Rng) : ModInteger × Rng :=
  (⟨((rng.seq rng.idx % prime.value : ℕ) : ℤ), prime⟩, ⟨rng.seq, rng.idx + 1⟩)

/-- `ModInteger::parse_radix` on a digit-list string: parse, then reduce by
Euclidean remainder.  `none` models a parse error (empty or malformed). -/
def ModInteger.parse_radix (s : List ℕ) (prime : Prime) (radix : ℕ) :
    Option ModInteger :=
  if s = [] ∨ ∃ d ∈ s, radix ≤ d then none
  else some ⟨((digitsToNat radix s : ℕ) : ℤ) % (prime.value : ℤ), prime⟩

/-- `ModInteger::from_digits`: big-endian byte interpretation, reduced by
Euclidean remainder; total. -/
def ModInteger.from_digits (digits : List ℕ) (prime : Prime) : ModInteger :=
  ⟨((digitsToNat 256 digits : ℕ) : ℤ) % (prime.value : ℤ), prime⟩

/-- Static `ModInteger::zero(prime)`. -/
def ModInteger.zero (prime : Prime) : ModInteger :=
  ⟨0, prime⟩

/-- `ModInteger::to_digits`: minimal big-endian byte string of the value. -/
def ModInteger.to_digits (m : ModInteger) : List ℕ :=
  natToDigits 256 m.value.toNat m.value.toNat

/-- `ModInteger::to_string_radix` (for the non-negative values the library
produces): minimal digit string, `"0"` for zero. -/
def ModInteger.to_string_radix (m : ModInteger) (radix : ℕ) : List ℕ :=
  toStringRadix m.value.toNat radix

/-- `Field::zero` for `ModInteger` (the relative variant taking `&self`). -/
def ModInteger.field_zero (m : ModInteger) : ModInteger :=
  ⟨0, m.prime⟩

/-- `Field::one` for `ModInteger`. -/
def ModInteger.one (m : ModInteger) : ModInteger :=
  ⟨1, m.prime⟩

/-- `Field::add_inverse` for `ModInteger`: the source computes
`prime - value` with no further reduction. -/
def ModInteger.add_inverse (m : ModInteger) : ModInteger :=
  ⟨(m.prime.value : ℤ) - m.value, m.prime⟩

/-- `Field::mul_inverse` for `ModInteger`; `none` models the panic of the
`expect` when `rug` finds no inverse. -/
def ModInteger.mul_inverse (m : ModInteger) : Option ModInteger :=
  (invertInt m.value m.prime.value).map fun w => ⟨(w : ℤ), m.prime⟩

/-- `Add for ModInteger`; `none` models the modulus-mismatch panic. -/
def ModInteger.add (a b : ModInteger) : Option ModInteger :=
  if a.prime ≠ b.prime then none
  else some ⟨(a.value + b.value) % (a.prime.value : ℤ), a.prime⟩

/-- `Sub for ModInteger`. -/
def ModInteger.sub (a b : ModInteger) : Option ModInteger :=
  if a.prime ≠ b.prime then none
  else some ⟨(a.value - b.value) % (a.prime.value : ℤ), a.prime⟩

/-- `Mul for ModInteger`. -/
def ModInteger.mul (a b : ModInteger) : Option ModInteger :=
  if a.prime ≠ b.prime then none
  else some ⟨(a.value * b.value) % (a.prime.value : ℤ), a.prime⟩

/-- `Div for ModInteger`: the source panics on a zero divisor first, then
on a modulus mismatch, then on a failed inversion. -/
def ModInteger.div (a b : ModInteger) : Option ModInteger :=
  if b.value = 0 then none
  else if a.prime ≠ b.prime then none
  else (invertInt b.value b.prime.value).map fun w =>
    ⟨(a.value * (w : ℤ)) % (a.prime.value : ℤ), a.prime⟩

/-- `AddAssign for ModInteger` (same arithmetic as `add`). -/
def ModInteger.add_assign (a b : ModInteger) : Option ModInteger :=
  if a.prime ≠ b.prime then none
  else some ⟨(a.value + b.value) % (a.prime.value : ℤ), a.prime⟩

/-- `SubAssign for ModInteger`. -/
def ModInteger.sub_assign (a b : ModInteger) : Option ModInteger :=
  if a.prime ≠ b.prime then none
  else some ⟨(a.value - b.value) % (a.prime.value : ℤ), a.prime⟩

/-- `MulAssign for ModInteger`. -/
def ModInteger.mul_assign (a b : ModInteger) : Option ModInteger :=
  if a.prime ≠ b.prime then none
  else some ⟨(a.value * b.value) % (a.prime.value : ℤ), a.prime⟩

/-- `DivAssign for ModInteger`: mismatch is checked before the zero
divisor here, but both outcomes are panics. -/
def ModInteger.div_assign (a b : ModInteger) : Option ModInteger :=
  if a.prime ≠ b.prime then none
  else if b.value = 0 then none
  else (invertInt b.value b.prime.value).map fun w =>
    ⟨(a.value * (w : ℤ)) % (a.prime.value : ℤ), a.prime⟩

/-- Model of `math::error::ValueError`. -/
structure ValueError where
  msg : String
deriving DecidableEq, Repr

/-- Model of `math::polynomial::Evaluation`. -/
abbrev Evaluation := ModInteger × ModInteger

/-- Model of `math::polynomial::CoeffPolynomial`. -/
structure CoeffPolynomial where
  coefficients : List ModInteger
deriving DecidableEq, Repr

/-- Model of `math::polynomial::InterpolationPolynomial`. -/
structure InterpolationPolynomial where
  evaluations : List Evaluation
deriving DecidableEq, Repr

/-- `CoeffPolynomial::new`; the `Except.error` outcomes model the two
panics (this constructor is fatal, not recoverable). -/
def CoeffPolynomial.new (coefficients : List ModInteger) :
    Except String CoeffPolynomial :=
  match coefficients.head?, coefficients.getLast? with
  | some c0, some cl =>
    if cl = c0.field_zero then Except.error ("Last coefficient is zero")
    else Except.ok ⟨coefficients⟩
  | _, _ => Except.error ("Tried to create polynomial with zero elements")

/-- `CoeffPolynomial::eval`: Horner fold over the reversed coefficient
list; `none` models a panic inside the field operations. -/
def CoeffPolynomial.eval (poly : CoeffPolynomial) (x : ModInteger) :
    Option Evaluation :=
  match poly.coefficients.head? with
  | none => none
  | some c0 =>
    (poly.coefficients.reverse.foldlM
      (fun (acc ai : ModInteger) => do
        let t ← acc.mul x
        t.add ai)
      c0.field_zero).map fun y => (x, y)

/-- `InterpolationPolynomial::new`: recoverable `ValueError` on an empty
list or a duplicated `x` component (`ModInteger` equality). -/
def InterpolationPolynomial.new (evaluations : List Evaluation) :
    Except ValueError InterpolationPolynomial :=
  if evaluations = [] then Except.error ⟨"No evaluations were provided"⟩
  else if (evaluations.map Prod.fst).Nodup then Except.ok ⟨evaluations⟩
  else Except.error ⟨"Duplicated x across Evaluation"⟩

/-- `InterpolationPolynomial::eval_base_polynomial`: value of the `i`-th
Lagrange base polynomial at `x`. -/
def InterpolationPolynomial.eval_base_polynomial
    (poly : InterpolationPolynomial) (x : ModInteger) (i : ℕ) :
    Option ModInteger :=
  match poly.evaluations[i]? with
  | none => none
  | some ei =>
    ((poly.evaluations.enum.filter fun je => je.1 ≠ i).map fun je => je.2.1).foldlM
      (fun (acc xj : ModInteger) => do
        let d1 ← x.sub xj
        let t ← acc.mul d1
        let d2 ← ei.1.sub xj
        t.div d2)
      ei.1.one

/-- `InterpolationPolynomial::eval`: Lagrange interpolation. -/
def InterpolationPolynomial.eval (poly : InterpolationPolynomial)
    (x : ModInteger) : Option Evaluation :=
  match poly.evaluations.head? with
  | none => none
  | some e0 =>
    (poly.evaluations.enum.foldlM
      (fun (acc : ModInteger) (ie : ℕ × Evaluation) => do
        let b ← poly.eval_base_polynomial x ie.1
        let t ← ie.2.2.mul b
        acc.add t)
      e0.1.field_zero).map fun y => (x, y)

/-- Model of `math::polynomial::Polynomial`. -/
inductive Polynomial where
  | Coefficients : CoeffPolynomial → Polynomial
  | Interpolation : InterpolationPolynomial → Polynomial
deriving DecidableEq, Repr

/-- `Polynomial::from_coefficients` (fatal on violated preconditions). -/
def Polynomial.from_coefficients (coefficients : List ModInteger) :
    Except String Polynomial :=
  (CoeffPolynomial.new coefficients).map Polynomial.Coefficients

/-- `Polynomial::from_evals` (recoverable `ValueError`). -/
def Polynomial.from_evals (evaluations : List Evaluation) :
    Except ValueError Polynomial :=
  (InterpolationPolynomial.new evaluations).map Polynomial.Interpolation

/-- `Polynomial::eval`. -/
def Polynomial.eval (poly : Polynomial) (int : ModInteger) :
    Option Evaluation :=
  match poly with
  | Polynomial.Coefficients q => q.eval int
  | Polynomial.Interpolation q => q.eval int

end SharedSecrets

namespace SharedSecrets

/-- The hard-coded 257-bit modulus `PRIME_257` of `src/crypto/shamir.rs`. -/
def PRIME_257 : ℕ :=
  208351617316091241234326746312124448251235562226470491514186331217050270460481

/-- The radix used when transforming shares to evaluations. -/
def RADIX : ℕ := 36

/-- Model of `crypto::shamir::Share`: a pair of radix-36 digit strings. -/
abbrev Share := List ℕ × List ℕ

/-- Outcome of running a piece of code that may panic or loop forever. -/
inductive RunResult (α : Type) where
  | panicked : String → RunResult α
  | timeout : RunResult α
  | ok : α → RunResult α
deriving DecidableEq, Repr

/-- `crypto::shamir::non_zero_random`: redraw while the draw equals
`zero`; `none` when the fuel is exhausted (the real loop spins forever on
a stream of zero draws). -/
def non_zero_random (prime : Prime) (rng : Rng) (zero : ModInteger) :
    ℕ → Option (ModInteger × Rng)
  | 0 => none
  | fuel + 1 =>
    let (random, rng1) := ModInteger.random prime rng
    if random = zero then non_zero_random prime rng1 zero fuel
    else some (random, rng1)

/-- The `for _ in 1..k-2` loop of `split_secret`, pushing one uniform draw
per iteration. -/
def randomList (prime : Prime) (rng : Rng) : ℕ → List ModInteger × Rng
  | 0 => ([], rng)
  | c + 1 =>
    let (r, rng1) := ModInteger.random prime rng
    let (rest, rng2) := randomList prime rng1 c
    (r :: rest, rng2)

/-- The coefficient-construction block of `split_secret` (lines 47-56 of
`shamir.rs`): the secret, then the `for _ in 1..k-2` draws, then one
non-zero draw, but only when `k > 1`. -/
def splitCoefficients (secret_number : ModInteger) (k : ℕ) (prime : Prime)
    (zero : ModInteger) (rng : Rng) (fuel : ℕ) :
    Option (List ModInteger × Rng) :=
  if 1 < k then
    let (middle, rng1) := randomList prime rng (k - 2 - 1)
    match non_zero_random prime rng1 zero fuel with
    | none => none
    | some (last, rng2) => some (secret_number :: middle ++ [last], rng2)
  else some ([secret_number], rng)

/-- The evaluation-collection loop of `split_secret`: draw a non-zero
point, evaluate, insert the radix-encoded pair into the share set (a
`HashSet`, modelled as a duplicate-free list in insertion order). -/
def collectEvaluations (polynomial : Polynomial) (prime : Prime)
    (zero : ModInteger) (n : ℕ) : ℕ → Rng → List Share → RunResult (List Share)
  | fuel, rng, acc =>
    if n ≤ acc.length then RunResult.ok acc
    else
      match fuel with
      | 0 => RunResult.timeout
      | fuel + 1 =>
        match non_zero_random prime rng zero (fuel + 1) with
        | none => RunResult.timeout
        | some (x, rng1) =>
          match polynomial.eval x with
          | none =>
            RunResult.panicked ("Illegal operation between different modulus numbers")
          | some (ex, ey) =>
            let share : Share := (ex.to_string_radix RADIX, ey.to_string_radix RADIX)
            collectEvaluations polynomial prime zero n fuel rng1
              (if share ∈ acc then acc else acc ++ [share])

/-- Model of `crypto::shamir::split_secret`.  `panicked` models the Rust
panics, `timeout` stands for a run of the rejection-sampling loops longer
than `fuel`. -/
def split_secret (secret : List ℕ) (n k : ℕ) (rng : Rng) (fuel : ℕ) :
    RunResult (List Share) :=
  if n ≤ 2 then RunResult.panicked ("n must be greater than 2")
  else if k = 0 ∨ n < k then
    RunResult.panicked ("k must be in the range 0 < k <= n")
  else
    let prime : Prime := ⟨PRIME_257⟩
    let zero := ModInteger.zero prime
    let secret_number := ModInteger.from_digits secret prime
    match splitCoefficients secret_number k prime zero rng fuel with
    | none => RunResult.timeout
    | some (coefficients, rng1) =>
      match Polynomial.from_coefficients coefficients with
      | Except.error msg => RunResult.panicked msg
      | Except.ok polynomial => collectEvaluations polynomial prime zero n fuel rng1 []

/-- Model of `crypto::shamir::recover_secret`.  The outer `RunResult`
carries panics inside the evaluation; the inner `Except` is the function's
own `Result` (parse failures and interpolation `ValueError`s). -/
def recover_secret (shares : List Share) :
    RunResult (Except ValueError (List ℕ)) :=
  let prime : Prime := ⟨PRIME_257⟩
  match shares.mapM (fun sh => do
      let x ← ModInteger.parse_radix sh.1 prime RADIX
      let y ← ModInteger.parse_radix sh.2 prime RADIX
      some ((x, y) : Evaluation)) with
  | none => RunResult.ok (Except.error ⟨"ParseIntegerError"⟩)
  | some evaluations =>
    match Polynomial.from_evals evaluations with
    | Except.error e => RunResult.ok (Except.error e)
    | Except.ok polynomial =>
      match polynomial.eval (ModInteger.zero prime) with
      | none =>
        RunResult.panicked ("Illegal operation between different modulus numbers")
      | some (_, secret_number) =>
        RunResult.ok (Except.ok secret_number.to_digits)

/-- Splitting followed by recovery from the first `take` shares, the
composition exercised by the round-trip property. -/
def splitThenRecover (secret : List ℕ) (n k : ℕ) (rng : Rng) (fuel take : ℕ) :
    RunResult (Except ValueError (List ℕ)) :=
  match split_secret secret n k rng fuel with
  | RunResult.panicked msg => RunResult.panicked msg
  | RunResult.timeout => RunResult.timeout
  | RunResult.ok shares => recover_secret (shares.take take)

end SharedSecrets

/-! ## Field-level semantics

`specDirectEval` is modelled from the spec's words: the coefficient list
`[a0, a1, ..., ad]` represents the function `a0 + a1*x + ... + ad*x^d`
over the modular field.  It is the reference point for the refinement
claims about Horner evaluation. -/

def specDirectEval {p : ℕ} : List (ZMod p) → ZMod p → ZMod p
  | [], _ => 0
  | c :: rest, x => c + x * specDirectEval rest x

/-- The Mathlib polynomial with the given coefficient list (constant term
first); proof-side infrastructure only. -/
noncomputable def zmodPoly {p : ℕ} (cs : List (ZMod p)) : Polynomial (ZMod p) :=
  cs.foldr (fun c q => Polynomial.C c + Polynomial.X * q) 0

theorem zmodPoly_eval {p : ℕ} (cs : List (ZMod p)) (z : ZMod p) :
    (zmodPoly cs).eval z = specDirectEval cs z := by
  induction cs with
  | nil => simp [zmodPoly, specDirectEval]
  | cons c t ih =>
    show (Polynomial.C c + Polynomial.X * zmodPoly t).eval z = _
    simp [specDirectEval, ih]

theorem zmodPoly_degree_lt {p : ℕ} (cs : List (ZMod p)) :
    (zmodPoly cs).degree < (cs.length : WithBot ℕ) := by
  induction cs with
  | nil =>
    show (0 : Polynomial (ZMod p)).degree < ((0 : ℕ) : WithBot ℕ)
    rw [Polynomial.degree_zero]
    exact WithBot.bot_lt_coe 0
  | cons c t ih =>
    show (Polynomial.C c + Polynomial.X * zmodPoly t).degree < _
    apply lt_of_le_of_lt (Polynomial.degree_add_le _ _)
    rw [max_lt_iff]
    constructor
    · exact lt_of_le_of_lt Polynomial.degree_C_le (by exact_mod_cast Nat.succ_pos t.length)
    · apply lt_of_le_of_lt (Polynomial.degree_mul_le _ _)
      apply lt_of_le_of_lt (add_le_add_right Polynomial.degree_X_le _)
      have hco : ((t.length + 1 : ℕ) : WithBot ℕ) = (1 : WithBot ℕ) + (t.length : ℕ) := by
        push_cast
        ring
      rw [List.length_cons, hco]
      exact WithBot.add_lt_add_left (by simp) ih

/-- Lagrange exactness over `ZMod p`, in the elementwise form produced by
the embedded interpolation code: summing `f(x) * ∏ (z - u)/(x - u)` over
the node set reproduces `f(z)` whenever the node set has more elements
than `f` has coefficients. -/
theorem lagrange_finset_eq (p : ℕ) (hp : p.Prime) (S : Finset (ZMod p))
    (cs : List (ZMod p)) (hcs : cs.length ≤ S.card) (z : ZMod p) :
    ∑ x ∈ S, specDirectEval cs x * ∏ u ∈ S.erase x, (z - u) * (x - u)⁻¹ =
      specDirectEval cs z := by
  haveI : Fact p.Prime := ⟨hp⟩
  have hdeg : (zmodPoly cs).degree < (S.card : WithBot ℕ) :=
    lt_of_lt_of_le (zmodPoly_degree_lt cs) (by exact_mod_cast hcs)
  have hinj : Set.InjOn id (S : Set (ZMod p)) := Function.injective_id.injOn
  have hint := Lagrange.eq_interpolate (f := zmodPoly cs) hinj hdeg
  have heval := congrArg (Polynomial.eval z) hint
  rw [Lagrange.interpolate_apply, Polynomial.eval_finset_sum] at heval
  have hterm : ∀ x ∈ S,
      Polynomial.eval z
        (Polynomial.C ((zmodPoly cs).eval (id x)) * Lagrange.basis S id x) =
      specDirectEval cs x * ∏ u ∈ S.erase x, (z - u) * (x - u)⁻¹ := by
    intro x hx
    rw [Polynomial.eval_mul, Polynomial.eval_C, id_eq, zmodPoly_eval]
    congr 1
    rw [Lagrange.basis, Polynomial.eval_prod]
    apply Finset.prod_congr rfl
    intro u hu
    simp only [Lagrange.basisDivisor, Polynomial.eval_mul, Polynomial.eval_C,
      Polynomial.eval_sub, Polynomial.eval_X, id_eq]
    ring
  have hsum : ∑ x ∈ S, specDirectEval cs x * ∏ u ∈ S.erase x, (z - u) * (x - u)⁻¹ =
      ∑ x ∈ S, Polynomial.eval z
        (Polynomial.C ((zmodPoly cs).eval (id x)) * Lagrange.basis S id x) :=
    Finset.sum_congr rfl fun x hx => (hterm x hx).symm
  rw [hsum, ← heval, zmodPoly_eval]

/-- Casting an Euclidean remainder into `ZMod p` equals casting the
original integer. -/
theorem intCast_emod_zmod (p : ℕ) (x : ℤ) : ((x % (p : ℤ) : ℤ) : ZMod p) = (x : ZMod p) := by
  rw [ZMod.intCast_eq_intCast_iff']
  exact Int.emod_emod_of_dvd _ dvd_rfl

/-- Casting into `ZMod p` is injective on integers in `[0, p)`. -/
theorem intCast_zmod_inj (p : ℕ) (a b : ℤ) (ha : 0 ≤ a) (hb : a < (p : ℤ))
    (hc : 0 ≤ b) (hd : b < (p : ℤ)) (h : (a : ZMod p) = (b : ZMod p)) : a = b := by
  rw [ZMod.intCast_eq_intCast_iff'] at h
  rwa [Int.emod_eq_of_lt ha hb, Int.emod_eq_of_lt hc hd] at h

namespace SharedSecrets

/-- Canonical interpretation of a modular integer in `ZMod p`. -/
def ModInteger.cast (p : ℕ) (m : ModInteger) : ZMod p :=
  (m.value : ZMod p)

/-- Well-formedness with respect to the modulus value `p`: the right prime
reference and a reduced value. -/
def ModInteger.Wf (p : ℕ) (m : ModInteger) : Prop :=
  m.prime = ⟨p⟩ ∧ 0 ≤ m.value ∧ m.value < (p : ℤ)

theorem ModInteger.Wf.cast_inj (p : ℕ) (a b : ModInteger) (ha : a.Wf p)
    (hb : b.Wf p) (h : a.cast p = b.cast p) : a = b := by
  obtain ⟨hpa, ha0, ha1⟩ := ha
  obtain ⟨hpb, hb0, hb1⟩ := hb
  have hv : a.value = b.value := intCast_zmod_inj p _ _ ha0 ha1 hb0 hb1 h
  cases a; cases b
  simp_all

theorem ModInteger.add_eq (p : ℕ) (a b : ModInteger)
    (ha : a.prime = ⟨p⟩) (hb : b.prime = ⟨p⟩) :
    a.add b = some ⟨(a.value + b.value) % (p : ℤ), ⟨p⟩⟩ := by
  unfold ModInteger.add
  rw [if_neg (by rw [ha, hb]; simp), ha]

theorem ModInteger.sub_eq (p : ℕ) (a b : ModInteger)
    (ha : a.prime = ⟨p⟩) (hb : b.prime = ⟨p⟩) :
    a.sub b = some ⟨(a.value - b.value) % (p : ℤ), ⟨p⟩⟩ := by
  unfold ModInteger.sub
  rw [if_neg (by rw [ha, hb]; simp), ha]

theorem ModInteger.mul_eq (p : ℕ) (a b : ModInteger)
    (ha : a.prime = ⟨p⟩) (hb : b.prime = ⟨p⟩) :
    a.mul b = some ⟨(a.value * b.value) % (p : ℤ), ⟨p⟩⟩ := by
  unfold ModInteger.mul
  rw [if_neg (by rw [ha, hb]; simp), ha]

theorem emod_wf (p : ℕ) (hp : 0 < p) (x : ℤ) (prime : Prime)
    (hprime : prime = ⟨p⟩) : ModInteger.Wf p ⟨x % (p : ℤ), prime⟩ := by
  refine ⟨by rw [hprime], Int.emod_nonneg _ ?_, Int.emod_lt_of_pos _ ?_⟩
  · exact_mod_cast hp.ne.symm
  · exact_mod_cast hp

theorem cast_mk_emod (p : ℕ) (x : ℤ) (prime : Prime) :
    ModInteger.cast p ⟨x % (p : ℤ), prime⟩ = (x : ZMod p) := by
  unfold ModInteger.cast
  exact intCast_emod_zmod p x

/-- `ZMod`-side characterisation of a successful inversion under a true
prime. -/
theorem invert_cast (p : ℕ) (hp : p.Prime) (v : ℤ)
    (hv : (v : ZMod p) ≠ 0) :
    ∃ w, invertInt v p = some w ∧ ((w : ℤ) : ZMod p) = (v : ZMod p)⁻¹ := by
  haveI : Fact p.Prime := ⟨hp⟩
  have hvm : v % (p : ℤ) ≠ 0 := by
    intro hc
    apply hv
    rw [← intCast_emod_zmod p v, hc]
    simp
  obtain ⟨w, hw⟩ := invertInt_isSome_of_prime p hp v hvm
  obtain ⟨hwlt, hmod⟩ := invertInt_some v p hp.pos w hw
  refine ⟨w, hw, ?_⟩
  have hcast : (((w : ℤ) * v : ℤ) : ZMod p) = ((1 : ℤ) : ZMod p) :=
    (ZMod.intCast_eq_intCast_iff' _ _ _).mpr hmod
  push_cast at hcast ⊢
  exact eq_inv_of_mul_eq_one_left hcast

theorem ModInteger.div_eq (p : ℕ) (hp : p.Prime) (a b : ModInteger)
    (ha : a.prime = ⟨p⟩) (hb : b.prime = ⟨p⟩)
    (hbz : b.cast p ≠ 0) :
    ∃ c, a.div b = some c ∧ c.Wf p ∧
      c.cast p = a.cast p * (b.cast p)⁻¹ := by
  obtain ⟨w, hw, hwc⟩ := invert_cast p hp b.value hbz
  have hbv : b.value ≠ 0 := by
    intro hc
    apply hbz
    unfold ModInteger.cast
    rw [hc]
    simp
  refine ⟨⟨(a.value * (w : ℤ)) % (p : ℤ), ⟨p⟩⟩, ?_, emod_wf p hp.pos _ _ rfl, ?_⟩
  · unfold ModInteger.div
    have hbpv : b.prime.value = p := by rw [hb]
    rw [if_neg hbv, if_neg (by rw [ha, hb]; simp), hbpv, hw, ha]
    rfl
  · rw [cast_mk_emod]
    unfold ModInteger.cast
    push_cast at hwc ⊢
    rw [hwc]

/-- `Field::mul_inverse` under a true prime. -/
theorem ModInteger.mul_inverse_eq (p : ℕ) (hp : p.Prime) (b : ModInteger)
    (hb : b.prime = ⟨p⟩) (hbz : b.cast p ≠ 0) :
    ∃ c, b.mul_inverse = some c ∧ c.prime = ⟨p⟩ ∧ 0 ≤ c.value ∧
      c.value < (p : ℤ) ∧ c.cast p = (b.cast p)⁻¹ := by
  obtain ⟨w, hw, hwc⟩ := invert_cast p hp b.value hbz
  obtain ⟨hwlt, _⟩ := invertInt_some b.value p hp.pos w hw
  refine ⟨⟨(w : ℤ), b.prime⟩, ?_, by rw [hb], Int.natCast_nonneg w, ?_, ?_⟩
  · unfold ModInteger.mul_inverse
    have hbpv : b.prime.value = p := by rw [hb]
    rw [hbpv, hw]
    rfl
  · show (w : ℤ) < (p : ℤ)
    exact_mod_cast hwlt
  · unfold ModInteger.cast
    exact hwc

end SharedSecrets

theorem horner_foldl_eq_direct {p : ℕ} (x : ZMod p) :
    ∀ cs : List (ZMod p),
      List.foldl (fun a c => a * x + c) 0 cs.reverse = specDirectEval cs x := by
  intro cs
  induction cs with
  | nil => simp [specDirectEval]
  | cons c t ih =>
    rw [List.reverse_cons, List.foldl_append, ih]
    show specDirectEval t x * x + c = specDirectEval (c :: t) x
    show _ = c + x * specDirectEval t x
    ring

namespace SharedSecrets

/-- The Horner step of `CoeffPolynomial::eval`, traced into `ZMod p`. -/
theorem horner_fold_bridge (p : ℕ) (hp : 0 < p) (x : ModInteger)
    (hx : x.prime = ⟨p⟩) :
    ∀ l : List ModInteger, (∀ c ∈ l, c.prime = ⟨p⟩) →
      ∀ acc : ModInteger, acc.prime = ⟨p⟩ →
        ∃ y, (l.foldlM (fun (a ai : ModInteger) => do
            let t ← a.mul x
            t.add ai) acc) = some y ∧ y.prime = ⟨p⟩ ∧
          (y.value : ZMod p) =
            List.foldl (fun a c => a * (x.value : ZMod p) + c)
              (acc.value : ZMod p) (l.map fun c => (c.value : ZMod p)) ∧
          (l ≠ [] → 0 ≤ y.value ∧ y.value < (p : ℤ)) ∧ (l = [] → y = acc) := by
  intro l
  induction l with
  | nil =>
    intro _ acc hacc
    exact ⟨acc, rfl, hacc, by simp, fun h => absurd rfl h, fun _ => rfl⟩
  | cons c t ih =>
    intro hl acc hacc
    have hc : c.prime = ⟨p⟩ := hl c (List.mem_cons_self c t)
    have hmul := ModInteger.mul_eq p acc x hacc hx
    have hadd := ModInteger.add_eq p ⟨(acc.value * x.value) % (p : ℤ), ⟨p⟩⟩ c rfl hc
    obtain ⟨y, hy, hyp, hycast, hybound, hynil⟩ :=
      ih (fun d hd => hl d (List.mem_cons_of_mem c hd))
        ⟨((acc.value * x.value) % (p : ℤ) + c.value) % (p : ℤ), ⟨p⟩⟩ rfl
    refine ⟨y, ?_, hyp, ?_, ?_, ?_⟩
    · rw [List.foldlM_cons]
      show ((acc.mul x).bind fun t2 => t2.add c).bind _ = some y
      rw [hmul]
      show (ModInteger.add _ c).bind _ = some y
      rw [hadd]
      exact hy
    · rw [hycast]
      simp only [List.map_cons, List.foldl_cons]
      congr 1
      simp only [intCast_emod_zmod]
      push_cast
      ring
    · intro _
      rcases List.eq_nil_or_concat t with ht | ht
      · subst ht
        have hyv := hynil rfl
        subst hyv
        have hw := emod_wf p hp ((acc.value * x.value) % (p : ℤ) + c.value) ⟨p⟩ rfl
        exact ⟨hw.2.1, hw.2.2⟩
      · obtain ⟨l2, a2, rfl⟩ := ht
        exact hybound (by simp)
    · intro h
      exact absurd h (List.cons_ne_nil c t)

/-- `CoeffPolynomial::eval` succeeds on a non-empty list over one prime and
computes the direct polynomial evaluation in the field. -/
theorem coeff_eval_bridge (p : ℕ) (hp : 0 < p) (cs : List ModInteger)
    (hne : cs ≠ []) (hcs : ∀ c ∈ cs, c.prime = ⟨p⟩) (x : ModInteger)
    (hx : x.prime = ⟨p⟩) :
    ∃ y, CoeffPolynomial.eval ⟨cs⟩ x = some (x, y) ∧ y.Wf p ∧
      y.cast p =
        specDirectEval (cs.map fun c => (c.value : ZMod p)) (x.value : ZMod p) := by
  obtain ⟨c0, t, rfl⟩ := List.exists_cons_of_ne_nil hne
  have hc0 : c0.prime = ⟨p⟩ := hcs c0 (List.mem_cons_self c0 t)
  obtain ⟨y, hy, hyp, hycast, hybound, _⟩ :=
    horner_fold_bridge p hp x hx (c0 :: t).reverse
      (fun c hc => hcs c (List.mem_reverse.mp hc)) c0.field_zero
      (by unfold ModInteger.field_zero; rw [hc0])
  refine ⟨y, ?_, ⟨hyp, (hybound (by simp)).1, (hybound (by simp)).2⟩, ?_⟩
  · have hdef : CoeffPolynomial.eval ⟨c0 :: t⟩ x =
        ((c0 :: t).reverse.foldlM (fun (a ai : ModInteger) => do
            let t2 ← a.mul x
            t2.add ai) c0.field_zero : Option ModInteger).map (fun y => (x, y)) := rfl
    rw [hdef, hy]
    rfl
  · unfold ModInteger.cast
    rw [hycast]
    unfold ModInteger.field_zero
    show List.foldl _ ((0 : ℤ) : ZMod p) _ = _
    rw [Int.cast_zero, List.map_reverse]
    exact horner_foldl_eq_direct (x.value : ZMod p) ((c0 :: t).map fun c => (c.value : ZMod p))

end SharedSecrets

/-! ## List bookkeeping for the interpolation code -/

theorem list_eraseIdx_map {α β : Type} (f : α → β) :
    ∀ (l : List α) (i : ℕ), (l.map f).eraseIdx i = (l.eraseIdx i).map f := by
  intro l
  induction l with
  | nil => intro i; simp
  | cons x xs ih =>
    intro i
    cases i with
    | zero => simp
    | succ j => simp [List.eraseIdx_cons_succ, ih j]

theorem nodup_eraseIdx_eq_erase {α : Type} [DecidableEq α] :
    ∀ (l : List α) (i : ℕ) (h : i < l.length), l.Nodup →
      l.eraseIdx i = l.erase (l.get ⟨i, h⟩) := by
  intro l
  induction l with
  | nil => intro i h; simp at h
  | cons x xs ih =>
    intro i h hnd
    cases i with
    | zero => simp
    | succ j =>
      have hj : j < xs.length := by simpa using h
      have hx : x ∉ xs := (List.nodup_cons.mp hnd).1
      have hne : x ≠ xs.get ⟨j, hj⟩ := by
        intro hc
        exact hx (hc ▸ xs.get_mem j hj)
      rw [List.eraseIdx_cons_succ]
      show x :: xs.eraseIdx j = (x :: xs).erase (xs.get ⟨j, hj⟩)
      rw [List.erase_cons_tail (by simpa using hne),
        ih j hj (List.nodup_cons.mp hnd).2]

theorem nodup_toFinset_erase {α : Type} [DecidableEq α] (l : List α)
    (hl : l.Nodup) (a : α) : (l.erase a).toFinset = l.toFinset.erase a := by
  ext b
  rw [List.mem_toFinset, hl.mem_erase_iff, Finset.mem_erase, List.mem_toFinset]

theorem enum_filter_ne_map_snd {α : Type} :
    ∀ (l : List α) (i : ℕ),
      ((l.enum.filter fun je => je.1 ≠ i).map Prod.snd) = l.eraseIdx i := by
  intro l
  induction l with
  | nil => intro i; simp
  | cons x xs ih =>
    intro i
    rw [List.enum_cons']
    cases i with
    | zero =>
      rw [List.eraseIdx_zero]
      show (((0, x) :: (xs.enum.map (Prod.map (· + 1) id))).filter
        fun je => decide (je.1 ≠ 0)).map Prod.snd = xs
      rw [List.filter_cons]
      rw [if_neg (by simp)]
      have hall : (xs.enum.map (Prod.map (· + 1) id)).filter
          (fun je => decide (je.1 ≠ 0)) = xs.enum.map (Prod.map (· + 1) id) := by
        apply List.filter_eq_self.mpr
        intro a ha
        obtain ⟨je, _, rfl⟩ := List.mem_map.mp ha
        simp [Prod.map]
      rw [hall, List.map_map]
      have hsnd : (Prod.snd ∘ Prod.map (· + 1) (id : α → α)) = Prod.snd := by
        funext je
        simp [Prod.map]
      rw [hsnd]
      exact List.enumFrom_map_snd 0 xs
    | succ j =>
      rw [List.eraseIdx_cons_succ]
      show (((0, x) :: (xs.enum.map (Prod.map (· + 1) id))).filter
        fun je => decide (je.1 ≠ j + 1)).map Prod.snd = x :: xs.eraseIdx j
      rw [List.filter_cons]
      simp only [decide_eq_true_eq]
      rw [if_pos (by simp)]
      rw [List.map_cons]
      congr 1
      rw [List.filter_map]
      have hpred : ((fun je => decide (je.1 ≠ j + 1)) ∘ Prod.map (· + 1) (id : α → α)) =
          fun je : ℕ × α => decide (je.1 ≠ j) := by
        funext je
        simp [Prod.map]
      have hsnd : (Prod.snd ∘ Prod.map (· + 1) (id : α → α)) = Prod.snd := by
        funext je
        simp [Prod.map]
      rw [hpred, List.map_map, hsnd, ih j]

namespace SharedSecrets

/-- The base-polynomial fold of `eval_base_polynomial`, traced into
`ZMod p`. -/
theorem base_fold_bridge (p : ℕ) (hp : p.Prime) (z xi : ModInteger)
    (hz : z.prime = ⟨p⟩) (hxi : xi.prime = ⟨p⟩) :
    ∀ L : List ModInteger,
      (∀ xj ∈ L, xj.prime = ⟨p⟩ ∧ xi.cast p ≠ xj.cast p) →
      ∀ acc : ModInteger, acc.prime = ⟨p⟩ →
        ∃ b, (L.foldlM (fun (acc xj : ModInteger) => do
            let d1 ← z.sub xj
            let t ← acc.mul d1
            let d2 ← xi.sub xj
            t.div d2) acc) = some b ∧ b.prime = ⟨p⟩ ∧
          b.cast p = acc.cast p *
            (L.map fun xj =>
              (z.cast p - xj.cast p) * (xi.cast p - xj.cast p)⁻¹).prod := by
  intro L
  induction L with
  | nil =>
    intro _ acc hacc
    exact ⟨acc, rfl, hacc, by simp⟩
  | cons xj T ih =>
    intro hL acc hacc
    obtain ⟨hxj, hneq⟩ := hL xj (List.mem_cons_self xj T)
    have hsub1 := ModInteger.sub_eq p z xj hz hxj
    have hmul := ModInteger.mul_eq p acc ⟨(z.value - xj.value) % (p : ℤ), ⟨p⟩⟩ hacc rfl
    have hsub2 := ModInteger.sub_eq p xi xj hxi hxj
    have hd2cast : ModInteger.cast p ⟨(xi.value - xj.value) % (p : ℤ), ⟨p⟩⟩ =
        xi.cast p - xj.cast p := by
      rw [cast_mk_emod]
      push_cast
      rfl
    have hd2ne : ModInteger.cast p ⟨(xi.value - xj.value) % (p : ℤ), ⟨p⟩⟩ ≠ 0 := by
      rw [hd2cast]
      exact sub_ne_zero.mpr hneq
    obtain ⟨c, hc, hcwf, hccast⟩ := ModInteger.div_eq p hp
      ⟨(acc.value * ((z.value - xj.value) % (p : ℤ))) % (p : ℤ), ⟨p⟩⟩
      ⟨(xi.value - xj.value) % (p : ℤ), ⟨p⟩⟩ rfl rfl hd2ne
    obtain ⟨b, hb, hbp, hbcast⟩ :=
      ih (fun u hu => hL u (List.mem_cons_of_mem xj hu)) c hcwf.1
    refine ⟨b, ?_, hbp, ?_⟩
    · rw [List.foldlM_cons]
      show ((z.sub xj).bind _).bind _ = some b
      rw [hsub1]
      show ((acc.mul _).bind _).bind _ = some b
      rw [hmul]
      show ((xi.sub xj).bind _).bind _ = some b
      rw [hsub2]
      show (ModInteger.div _ _).bind _ = some b
      rw [hc]
      exact hb
    · rw [hbcast, hccast, hd2cast]
      have hmcast : ModInteger.cast p
          ⟨(acc.value * ((z.value - xj.value) % (p : ℤ))) % (p : ℤ), ⟨p⟩⟩ =
          acc.cast p * (z.cast p - xj.cast p) := by
        rw [cast_mk_emod]
        unfold ModInteger.cast
        push_cast
        ring
      rw [hmcast, List.map_cons, List.prod_cons]
      ring

end SharedSecrets

namespace SharedSecrets

/-- `eval_base_polynomial` succeeds on distinct nodes over a true prime
and computes the product of `(z - x_j)/(x_i - x_j)` in the field. -/
theorem eval_base_bridge (p : ℕ) (hp : p.Prime) (evals : List Evaluation)
    (z : ModInteger) (hz : z.prime = ⟨p⟩)
    (hx : ∀ e ∈ evals, e.1.prime = ⟨p⟩)
    (hnd : (evals.map fun e => e.1.cast p).Nodup)
    (i : ℕ) (hi : i < evals.length) :
    ∃ b, InterpolationPolynomial.eval_base_polynomial ⟨evals⟩ z i = some b ∧
      b.prime = ⟨p⟩ ∧
      b.cast p = (((evals.map fun e => e.1.cast p).erase
          ((evals.get ⟨i, hi⟩).1.cast p)).map fun u =>
        (z.cast p - u) * ((evals.get ⟨i, hi⟩).1.cast p - u)⁻¹).prod := by
  have hget : evals[i]? = some (evals.get ⟨i, hi⟩) := by
    rw [List.getElem?_eq_getElem hi]
    rfl
  have hL : ((evals.enum.filter fun je => je.1 ≠ i).map fun je => je.2.1) =
      (evals.map Prod.fst).eraseIdx i := by
    have h1 : (fun je : ℕ × Evaluation => je.2.1) =
        (Prod.fst ∘ Prod.snd : ℕ × Evaluation → ModInteger) := rfl
    rw [h1, ← List.map_map, enum_filter_ne_map_snd]
    exact (list_eraseIdx_map Prod.fst evals i).symm
  have hip : (evals.get ⟨i, hi⟩).1.prime = ⟨p⟩ :=
    hx _ (evals.get_mem i hi)
  have hdef : InterpolationPolynomial.eval_base_polynomial ⟨evals⟩ z i =
      (((evals.enum.filter fun je => je.1 ≠ i).map fun je => je.2.1).foldlM
        (fun (acc xj : ModInteger) => do
          let d1 ← z.sub xj
          let t ← acc.mul d1
          let d2 ← (evals.get ⟨i, hi⟩).1.sub xj
          t.div d2) (evals.get ⟨i, hi⟩).1.one : Option ModInteger) := by
    unfold InterpolationPolynomial.eval_base_polynomial
    rw [hget]
  have hzslen : i < (evals.map fun e => e.1.cast p).length := by
    simpa using hi
  have hmem : ∀ xj ∈ (evals.map Prod.fst).eraseIdx i,
      xj.prime = ⟨p⟩ ∧ (evals.get ⟨i, hi⟩).1.cast p ≠ xj.cast p := by
    intro xj hxj
    have hxj2 : xj ∈ evals.map Prod.fst := List.mem_of_mem_eraseIdx hxj
    obtain ⟨e, he, rfl⟩ := List.mem_map.mp hxj2
    refine ⟨hx e he, ?_⟩
    have hcastmem : e.1.cast p ∈
        ((evals.map Prod.fst).eraseIdx i).map (ModInteger.cast p) :=
      List.mem_map.mpr ⟨e.1, hxj, rfl⟩
    rw [← list_eraseIdx_map] at hcastmem
    have hcomp : (evals.map Prod.fst).map (ModInteger.cast p) =
        evals.map fun e => e.1.cast p := by
      rw [List.map_map]
      rfl
    rw [hcomp] at hcastmem
    rw [nodup_eraseIdx_eq_erase _ i hzslen hnd] at hcastmem
    have hgeteq : (evals.map fun e => e.1.cast p).get ⟨i, hzslen⟩ =
        (evals.get ⟨i, hi⟩).1.cast p := by
      simp
    rw [hgeteq] at hcastmem
    exact fun hc => ((hnd.mem_erase_iff.mp hcastmem).1 hc.symm).elim
  obtain ⟨b, hb, hbp, hbcast⟩ := base_fold_bridge p hp z (evals.get ⟨i, hi⟩).1
    hz hip ((evals.map Prod.fst).eraseIdx i) hmem (evals.get ⟨i, hi⟩).1.one
    (by unfold ModInteger.one; rw [hip])
  refine ⟨b, ?_, hbp, ?_⟩
  · rw [hdef, hL]
    exact hb
  · rw [hbcast]
    have honecast : ModInteger.cast p (evals.get ⟨i, hi⟩).1.one = 1 := by
      unfold ModInteger.one ModInteger.cast
      exact Int.cast_one
    rw [honecast, one_mul]
    have hlist : ((evals.map Prod.fst).eraseIdx i).map
        (fun xj => (z.cast p - xj.cast p) *
          ((evals.get ⟨i, hi⟩).1.cast p - xj.cast p)⁻¹) =
        (((evals.map fun e => e.1.cast p).erase
          ((evals.get ⟨i, hi⟩).1.cast p)).map fun u =>
            (z.cast p - u) * ((evals.get ⟨i, hi⟩).1.cast p - u)⁻¹) := by
      have hsplit : (fun xj : ModInteger => (z.cast p - xj.cast p) *
          ((evals.get ⟨i, hi⟩).1.cast p - xj.cast p)⁻¹) =
          ((fun u => (z.cast p - u) * ((evals.get ⟨i, hi⟩).1.cast p - u)⁻¹) ∘
            ModInteger.cast p) := rfl
      rw [hsplit, ← List.map_map, ← list_eraseIdx_map]
      have hcomp : (evals.map Prod.fst).map (ModInteger.cast p) =
          evals.map fun e => e.1.cast p := by
        rw [List.map_map]
        rfl
      rw [hcomp, nodup_eraseIdx_eq_erase _ i hzslen hnd]
      have hgeteq : (evals.map fun e => e.1.cast p).get ⟨i, hzslen⟩ =
          (evals.get ⟨i, hi⟩).1.cast p := by
        simp
      rw [hgeteq]
    rw [hlist]

end SharedSecrets

namespace SharedSecrets

/-- The outer fold of `InterpolationPolynomial::eval`, traced into
`ZMod p`: it accumulates `y_i * L_i(z)`. -/
theorem interp_fold_bridge (p : ℕ) (hp : 0 < p)
    (poly : InterpolationPolynomial) (z : ModInteger)
    (B : ℕ × Evaluation → ZMod p) :
    ∀ L : List (ℕ × Evaluation),
      (∀ je ∈ L, (∃ bi, poly.eval_base_polynomial z je.1 = some bi ∧
        bi.prime = ⟨p⟩ ∧ bi.cast p = B je) ∧ je.2.2.prime = ⟨p⟩) →
      ∀ acc : ModInteger, acc.prime = ⟨p⟩ →
        ∃ w, (L.foldlM (fun (acc : ModInteger) (ie : ℕ × Evaluation) => do
            let b ← poly.eval_base_polynomial z ie.1
            let t ← ie.2.2.mul b
            acc.add t) acc) = some w ∧ w.prime = ⟨p⟩ ∧
          w.cast p = acc.cast p +
            (L.map fun je => ((je.2.2.value : ℤ) : ZMod p) * B je).sum ∧
          (L ≠ [] → 0 ≤ w.value ∧ w.value < (p : ℤ)) ∧ (L = [] → w = acc) := by
  intro L
  induction L with
  | nil =>
    intro _ acc hacc
    exact ⟨acc, rfl, hacc, by simp, fun h => absurd rfl h, fun _ => rfl⟩
  | cons je T ih =>
    intro hL acc hacc
    obtain ⟨⟨bi, hbi, hbip, hbicast⟩, hyp⟩ := hL je (List.mem_cons_self je T)
    have hmul := ModInteger.mul_eq p je.2.2 bi hyp hbip
    have hadd := ModInteger.add_eq p acc
      ⟨(je.2.2.value * bi.value) % (p : ℤ), ⟨p⟩⟩ hacc rfl
    obtain ⟨w, hw, hwp, hwcast, hwbound, hwnil⟩ :=
      ih (fun u hu => hL u (List.mem_cons_of_mem je hu))
        ⟨(acc.value + (je.2.2.value * bi.value) % (p : ℤ)) % (p : ℤ), ⟨p⟩⟩ rfl
    refine ⟨w, ?_, hwp, ?_, ?_, ?_⟩
    · rw [List.foldlM_cons]
      show ((poly.eval_base_polynomial z je.1).bind _).bind _ = some w
      rw [hbi]
      show ((je.2.2.mul bi).bind _).bind _ = some w
      rw [hmul]
      show (acc.add _).bind _ = some w
      rw [hadd]
      exact hw
    · rw [hwcast]
      simp only [List.map_cons, List.sum_cons]
      have hscast : ModInteger.cast p
          ⟨(acc.value + (je.2.2.value * bi.value) % (p : ℤ)) % (p : ℤ), ⟨p⟩⟩ =
          acc.cast p + ((je.2.2.value : ℤ) : ZMod p) * B je := by
        rw [cast_mk_emod]
        rw [← hbicast]
        unfold ModInteger.cast
        push_cast
        ring
      rw [hscast]
      ring
    · intro _
      rcases List.eq_nil_or_concat T with ht | ht
      · subst ht
        have hwv := hwnil rfl
        subst hwv
        have hwf := emod_wf p hp
          (acc.value + (je.2.2.value * bi.value) % (p : ℤ)) ⟨p⟩ rfl
        exact ⟨hwf.2.1, hwf.2.2⟩
      · obtain ⟨l2, a2, rfl⟩ := ht
        exact hwbound (by simp)
    · intro h
      exact absurd h (List.cons_ne_nil je T)

/-- `InterpolationPolynomial::eval` over a true prime: it succeeds on a
non-empty node list with distinct field nodes and computes the Lagrange
sum in the field. -/
theorem interp_eval_bridge (p : ℕ) (hp : p.Prime) (evals : List Evaluation)
    (hne : evals ≠ [])
    (hx : ∀ e ∈ evals, e.1.prime = ⟨p⟩)
    (hy : ∀ e ∈ evals, e.2.prime = ⟨p⟩)
    (hnd : (evals.map fun e => e.1.cast p).Nodup)
    (z : ModInteger) (hz : z.prime = ⟨p⟩) :
    ∃ w, InterpolationPolynomial.eval ⟨evals⟩ z = some (z, w) ∧ w.Wf p ∧
      w.cast p = (evals.map fun e => ((e.2.value : ℤ) : ZMod p) *
        (((evals.map fun e2 => e2.1.cast p).erase (e.1.cast p)).map fun u =>
          (z.cast p - u) * (e.1.cast p - u)⁻¹).prod).sum := by
  obtain ⟨e0, t0, he0⟩ := List.exists_cons_of_ne_nil hne
  have hB : ∀ je ∈ evals.enum,
      (∃ bi, InterpolationPolynomial.eval_base_polynomial ⟨evals⟩ z je.1 =
          some bi ∧ bi.prime = ⟨p⟩ ∧
        bi.cast p = (((evals.map fun e2 => e2.1.cast p).erase
            (je.2.1.cast p)).map fun u =>
          (z.cast p - u) * (je.2.1.cast p - u)⁻¹).prod) ∧
      je.2.2.prime = ⟨p⟩ := by
    rw [List.forall_mem_enum]
    intro i hi
    have hgeteq : evals[i] = evals.get ⟨i, hi⟩ := rfl
    constructor
    · obtain ⟨b, hb, hbp, hbcast⟩ := eval_base_bridge p hp evals z hz hx hnd i hi
      exact ⟨b, hb, hbp, by rw [hbcast, hgeteq]⟩
    · exact hy _ (by rw [hgeteq]; exact evals.get_mem i hi)
  obtain ⟨w, hw, hwp, hwcast, hwbound, _⟩ :=
    interp_fold_bridge p hp.pos ⟨evals⟩ z
      (fun je => (((evals.map fun e2 => e2.1.cast p).erase
          (je.2.1.cast p)).map fun u =>
        (z.cast p - u) * (je.2.1.cast p - u)⁻¹).prod)
      evals.enum hB e0.1.field_zero
      (by unfold ModInteger.field_zero
          rw [hx e0 (by rw [he0]; exact List.mem_cons_self e0 t0)])
  have henne : evals.enum ≠ [] := by
    rw [he0]
    simp [List.enum_cons]
  refine ⟨w, ?_, ⟨hwp, (hwbound henne).1, (hwbound henne).2⟩, ?_⟩
  · have hdef : InterpolationPolynomial.eval ⟨evals⟩ z =
        (evals.enum.foldlM (fun (acc : ModInteger) (ie : ℕ × Evaluation) => do
          let b ← InterpolationPolynomial.eval_base_polynomial ⟨evals⟩ z ie.1
          let t ← ie.2.2.mul b
          acc.add t) e0.1.field_zero : Option ModInteger).map (fun y => (z, y)) := by
      unfold InterpolationPolynomial.eval
      rw [he0]
      rfl
    rw [hdef, hw]
    rfl
  · rw [hwcast]
    have hzero : ModInteger.cast p e0.1.field_zero = 0 := by
      unfold ModInteger.field_zero ModInteger.cast
      exact Int.cast_zero
    rw [hzero, zero_add]
    congr 1
    have hcomp : (evals.enum.map fun je => ((je.2.2.value : ℤ) : ZMod p) *
        (((evals.map fun e2 => e2.1.cast p).erase (je.2.1.cast p)).map fun u =>
          (z.cast p - u) * (je.2.1.cast p - u)⁻¹).prod) =
        (evals.enum.map Prod.snd).map (fun e => ((e.2.value : ℤ) : ZMod p) *
          (((evals.map fun e2 => e2.1.cast p).erase (e.1.cast p)).map fun u =>
            (z.cast p - u) * (e.1.cast p - u)⁻¹).prod) := by
      rw [List.map_map]
      rfl
    rw [hcomp, List.enum_eq_enumFrom, List.enumFrom_map_snd]

end SharedSecrets

namespace SharedSecrets

/-- Exactness of the embedded Lagrange interpolation: if every listed
evaluation is an output of the embedded Horner evaluation of a coefficient
polynomial over the true prime `p`, the nodes are pairwise distinct and at
least as numerous as the coefficients, then interpolation evaluates, at
any point, to the direct field evaluation of that coefficient list. -/
theorem interp_exactness (p : ℕ) (hp : p.Prime) (cs : List ModInteger)
    (hcsne : cs ≠ []) (hcs : ∀ c ∈ cs, c.prime = ⟨p⟩)
    (evals : List Evaluation)
    (hx : ∀ e ∈ evals, e.1.Wf p)
    (hlen : cs.length ≤ evals.length)
    (hndM : (evals.map Prod.fst).Nodup)
    (hev : ∀ e ∈ evals, CoeffPolynomial.eval ⟨cs⟩ e.1 = some e)
    (z : ModInteger) (hz : z.prime = ⟨p⟩) :
    ∃ w, InterpolationPolynomial.eval ⟨evals⟩ z = some (z, w) ∧ w.Wf p ∧
      w.cast p = specDirectEval (cs.map fun c => (c.value : ZMod p))
        (z.value : ZMod p) := by
  have hxp : ∀ e ∈ evals, e.1.prime = ⟨p⟩ := fun e he => (hx e he).1
  have hyfact : ∀ e ∈ evals, e.2.Wf p ∧
      e.2.cast p = specDirectEval (cs.map fun c => (c.value : ZMod p))
        (e.1.value : ZMod p) := by
    intro e he
    obtain ⟨y, hyeval, hywf, hycast⟩ :=
      coeff_eval_bridge p hp.pos cs hcsne hcs e.1 (hxp e he)
    have heq : some e = some (e.1, y) := by rw [← hev e he, hyeval]
    have heq2 : e = (e.1, y) := Option.some.inj heq
    have hey : e.2 = y := by rw [heq2]
    rw [hey]
    exact ⟨hywf, hycast⟩
  have hne : evals ≠ [] := by
    intro hc
    rw [hc] at hlen
    simp at hlen
    exact hcsne hlen
  have hndz : (evals.map fun e => e.1.cast p).Nodup := by
    have hcomp : (evals.map fun e => e.1.cast p) =
        (evals.map Prod.fst).map (ModInteger.cast p) := by
      rw [List.map_map]
      rfl
    rw [hcomp]
    refine List.Nodup.map_on ?_ hndM
    intro a ha b hb hfab
    exact ModInteger.Wf.cast_inj p a b
      (by obtain ⟨e, he, rfl⟩ := List.mem_map.mp ha; exact hx e he)
      (by obtain ⟨e, he, rfl⟩ := List.mem_map.mp hb; exact hx e he) hfab
  obtain ⟨w, hw, hwwf, hwcast⟩ := interp_eval_bridge p hp evals hne hxp
    (fun e he => (hyfact e he).1.1) hndz z hz
  refine ⟨w, hw, hwwf, ?_⟩
  rw [hwcast]
  have hstep1 : (evals.map fun e => ((e.2.value : ℤ) : ZMod p) *
      (((evals.map fun e2 => e2.1.cast p).erase (e.1.cast p)).map fun u =>
        (z.cast p - u) * (e.1.cast p - u)⁻¹).prod) =
      evals.map fun e =>
        specDirectEval (cs.map fun c => (c.value : ZMod p)) (e.1.cast p) *
        (((evals.map fun e2 => e2.1.cast p).erase (e.1.cast p)).map fun u =>
          (z.cast p - u) * (e.1.cast p - u)⁻¹).prod := by
    apply List.map_congr_left
    intro e he
    have hy2 := (hyfact e he).2
    unfold ModInteger.cast at hy2 ⊢
    rw [hy2]
  rw [hstep1]
  have hstep2 : (evals.map fun e =>
      specDirectEval (cs.map fun c => (c.value : ZMod p)) (e.1.cast p) *
      (((evals.map fun e2 => e2.1.cast p).erase (e.1.cast p)).map fun u =>
        (z.cast p - u) * (e.1.cast p - u)⁻¹).prod) =
      (evals.map fun e2 => e2.1.cast p).map (fun x =>
        specDirectEval (cs.map fun c => (c.value : ZMod p)) x *
        (((evals.map fun e2 => e2.1.cast p).erase x).map fun u =>
          (z.cast p - u) * (x - u)⁻¹).prod) := by
    rw [List.map_map]
    rfl
  rw [hstep2]
  have hstep3 : ((evals.map fun e2 => e2.1.cast p).map (fun x =>
      specDirectEval (cs.map fun c => (c.value : ZMod p)) x *
      (((evals.map fun e2 => e2.1.cast p).erase x).map fun u =>
        (z.cast p - u) * (x - u)⁻¹).prod)).sum =
      ∑ x ∈ (evals.map fun e2 => e2.1.cast p).toFinset,
        specDirectEval (cs.map fun c => (c.value : ZMod p)) x *
        (((evals.map fun e2 => e2.1.cast p).erase x).map fun u =>
          (z.cast p - u) * (x - u)⁻¹).prod :=
    (List.sum_toFinset _ hndz).symm
  rw [hstep3]
  have hstep4 : ∀ x ∈ (evals.map fun e2 => e2.1.cast p).toFinset,
      specDirectEval (cs.map fun c => (c.value : ZMod p)) x *
      (((evals.map fun e2 => e2.1.cast p).erase x).map fun u =>
        (z.cast p - u) * (x - u)⁻¹).prod =
      specDirectEval (cs.map fun c => (c.value : ZMod p)) x *
      ∏ u ∈ ((evals.map fun e2 => e2.1.cast p).toFinset).erase x,
        ((z.value : ZMod p) - u) * (x - u)⁻¹ := by
    intro x hxmem
    congr 1
    rw [← nodup_toFinset_erase _ hndz x]
    exact (List.prod_toFinset _ (hndz.erase x)).symm
  rw [Finset.sum_congr rfl hstep4]
  have hcard : cs.length ≤ ((evals.map fun e2 => e2.1.cast p).toFinset).card := by
    rw [List.toFinset_card_of_nodup hndz]
    simpa using hlen
  have hfinal := lagrange_finset_eq p hp
    ((evals.map fun e2 => e2.1.cast p).toFinset)
    (cs.map fun c => (c.value : ZMod p)) (by simpa using hcard)
    (z.value : ZMod p)
  exact hfinal

end SharedSecrets

theorem digitsToNat_toStringRadix (r : ℕ) (hr : 2 ≤ r) (v : ℕ) :
    digitsToNat r (toStringRadix v r) = v := by
  unfold toStringRadix
  split_ifs with h
  · subst h; simp [digitsToNat]
  · exact digitsToNat_natToDigits r hr v v le_rfl

theorem toStringRadix_ne_nil (r : ℕ) (hr : 2 ≤ r) (v : ℕ) :
    toStringRadix v r ≠ [] := by
  unfold toStringRadix
  split_ifs with h
  · simp
  · cases hv : v with
    | zero => exact absurd hv h
    | succ u =>
      show natToDigits r (u + 1) (u + 1) ≠ []
      simp [natToDigits, hv]

theorem toStringRadix_digit_lt (r : ℕ) (hr : 2 ≤ r) (v : ℕ) :
    ∀ d ∈ toStringRadix v r, d < r := by
  unfold toStringRadix
  split_ifs with h
  · intro d hd
    simp only [List.mem_singleton] at hd
    omega
  · exact fun d hd => natToDigits_digit_lt r (by omega) v v d hd

namespace SharedSecrets

/-- Parsing back a radix encoding of `v` yields `v` reduced modulo the
prime. -/
theorem parse_radix_toStringRadix (p : ℕ) (r : ℕ) (hr : 2 ≤ r) (v : ℕ) :
    ModInteger.parse_radix (toStringRadix v r) ⟨p⟩ r =
      some ⟨((v : ℕ) : ℤ) % (p : ℤ), ⟨p⟩⟩ := by
  unfold ModInteger.parse_radix
  rw [if_neg, digitsToNat_toStringRadix r hr v]
  push_neg
  exact ⟨toStringRadix_ne_nil r hr v,
    fun d hd => by have := toStringRadix_digit_lt r hr v d hd; omega⟩

/-- `ModInteger::random` produces a well-formed value and advances the
stream cursor. -/
theorem random_wf (prime : Prime) (hp : 0 < prime.value) (rng : Rng) :
    (ModInteger.random prime rng).1.Wf prime.value := by
  refine ⟨?_, ?_, ?_⟩
  · cases prime; rfl
  · exact Int.natCast_nonneg _
  · show ((rng.seq rng.idx % prime.value : ℕ) : ℤ) < (prime.value : ℤ)
    exact_mod_cast Nat.mod_lt _ hp

theorem non_zero_random_some (prime : Prime) (hp : 0 < prime.value) :
    ∀ (fuel : ℕ) (rng : Rng) (x : ModInteger) (rng1 : Rng),
      non_zero_random prime rng (ModInteger.zero prime) fuel = some (x, rng1) →
      x.prime = prime ∧ 0 ≤ x.value ∧ x.value < (prime.value : ℤ) ∧
        x.value ≠ 0 := by
  intro fuel
  induction fuel with
  | zero => intro rng x rng1 h; simp [non_zero_random] at h
  | succ f ih =>
    intro rng x rng1 h
    rw [non_zero_random] at h
    simp only [ModInteger.random] at h
    split_ifs at h with hz
    · exact ih _ x rng1 h
    · simp only [Option.some.injEq, Prod.mk.injEq] at h
      obtain ⟨hx, _⟩ := h
      rw [← hx]
      refine ⟨rfl, Int.natCast_nonneg _, ?_, ?_⟩
      · show ((rng.seq rng.idx % prime.value : ℕ) : ℤ) < (prime.value : ℤ)
        exact_mod_cast Nat.mod_lt _ hp
      · intro hc
        apply hz
        unfold ModInteger.zero
        rw [← hc]

theorem randomList_spec (prime : Prime) (hp : 0 < prime.value) :
    ∀ (c : ℕ) (rng : Rng),
      (randomList prime rng c).1.length = c ∧
      ∀ m ∈ (randomList prime rng c).1, m.Wf prime.value := by
  intro c
  induction c with
  | zero => intro rng; simp [randomList]
  | succ u ih =>
    intro rng
    rw [randomList]
    constructor
    · simp [(ih _).1]
    · intro m hm
      simp only [List.mem_cons] at hm
      rcases hm with rfl | hm
      · exact random_wf prime hp rng
      · exact (ih _).2 m hm

end SharedSecrets

namespace SharedSecrets

theorem splitCoefficients_spec (secret_number : ModInteger) (k : ℕ)
    (hk : 1 < k) (prime : Prime) (hp : 0 < prime.value)
    (hsec : secret_number.prime = prime) (rng : Rng) (fuel : ℕ)
    (cs : List ModInteger) (rng2 : Rng)
    (h : splitCoefficients secret_number k prime (ModInteger.zero prime)
      rng fuel = some (cs, rng2)) :
    cs.length = (k - 2 - 1) + 2 ∧ cs.head? = some secret_number ∧
      (∀ m ∈ cs, m.prime = prime) ∧
      ∃ last, cs.getLast? = some last ∧ last.value ≠ 0 := by
  have hprime_eta : prime = ⟨prime.value⟩ := by cases prime; rfl
  unfold splitCoefficients at h
  rw [if_pos hk] at h
  rcases hrl : randomList prime rng (k - 2 - 1) with ⟨middle, rngm⟩
  rw [hrl] at h
  dsimp only at h
  cases hnz : non_zero_random prime rngm (ModInteger.zero prime) fuel with
  | none => rw [hnz] at h; simp at h
  | some pair =>
    obtain ⟨last, rngl⟩ := pair
    rw [hnz] at h
    simp only [Option.some.injEq, Prod.mk.injEq] at h
    obtain ⟨hcs, _⟩ := h
    obtain ⟨hlp, hl0, hl1, hlnz⟩ := non_zero_random_some prime hp fuel rngm last rngl hnz
    have hmid := randomList_spec prime hp (k - 2 - 1) rng
    rw [hrl] at hmid
    dsimp only at hmid
    obtain ⟨hmlen, hmwf⟩ := hmid
    subst hcs
    refine ⟨?_, rfl, ?_, last, ?_, hlnz⟩
    · simp only [List.length_cons, List.length_append, List.length_nil, hmlen]
    · intro m hm
      rcases List.mem_cons.mp hm with rfl | hm3
      · exact hsec
      · rcases List.mem_append.mp hm3 with hm4 | hm4
        · rw [hprime_eta]; exact (hmwf m hm4).1
        · rw [List.mem_singleton.mp hm4]; exact hlp
    · show ((secret_number :: middle) ++ [last]).getLast? = some last
      rw [List.getLast?_concat]

theorem coeff_new_ok (cs : List ModInteger) (c0 : ModInteger)
    (hh : cs.head? = some c0) (last : ModInteger)
    (hl : cs.getLast? = some last) (hlz : last.value ≠ 0) :
    CoeffPolynomial.new cs = Except.ok ⟨cs⟩ := by
  unfold CoeffPolynomial.new
  rw [hh, hl]
  dsimp only
  rw [if_neg]
  intro hc
  apply hlz
  rw [hc]
  rfl

theorem from_coefficients_ok (cs : List ModInteger) (c0 : ModInteger)
    (hh : cs.head? = some c0) (last : ModInteger)
    (hl : cs.getLast? = some last) (hlz : last.value ≠ 0) :
    Polynomial.from_coefficients cs =
      Except.ok (Polynomial.Coefficients ⟨cs⟩) := by
  unfold Polynomial.from_coefficients
  rw [coeff_new_ok cs c0 hh last hl hlz]
  rfl

/-- A share produced by the collection loop: the radix encoding of a
non-zero well-formed node with the evaluation of the polynomial there. -/
def GoodShare (polynomial : Polynomial) (p : ℕ) (sh : Share) : Prop :=
  ∃ x y : ModInteger, polynomial.eval x = some (x, y) ∧ x.Wf p ∧
    x.value ≠ 0 ∧ y.Wf p ∧
    sh = (x.to_string_radix RADIX, y.to_string_radix RADIX)

theorem collectEvaluations_done (polynomial : Polynomial) (prime : Prime)
    (zero : ModInteger) (n fuel : ℕ) (rng : Rng) (acc : List Share)
    (hdone : n ≤ acc.length) :
    collectEvaluations polynomial prime zero n fuel rng acc =
      RunResult.ok acc := by
  rw [collectEvaluations.eq_def]
  dsimp only
  rw [if_pos hdone]

theorem collectEvaluations_zero_else (polynomial : Polynomial) (prime : Prime)
    (zero : ModInteger) (n : ℕ) (rng : Rng) (acc : List Share)
    (hnot : ¬ n ≤ acc.length) :
    collectEvaluations polynomial prime zero n 0 rng acc =
      RunResult.timeout := by
  rw [collectEvaluations.eq_def]
  dsimp only
  rw [if_neg hnot]

theorem collectEvaluations_succ_none (polynomial : Polynomial) (prime : Prime)
    (zero : ModInteger) (n f : ℕ) (rng : Rng) (acc : List Share)
    (hnot : ¬ n ≤ acc.length)
    (hnz : non_zero_random prime rng zero (f + 1) = none) :
    collectEvaluations polynomial prime zero n (f + 1) rng acc =
      RunResult.timeout := by
  rw [collectEvaluations.eq_def]
  dsimp only
  rw [if_neg hnot, hnz]

theorem collectEvaluations_step (polynomial : Polynomial) (prime : Prime)
    (zero : ModInteger) (n f : ℕ) (rng : Rng) (acc : List Share)
    (x : ModInteger) (rng1 : Rng) (ex ey : ModInteger)
    (hnot : ¬ n ≤ acc.length)
    (hnz : non_zero_random prime rng zero (f + 1) = some (x, rng1))
    (hev : polynomial.eval x = some (ex, ey)) :
    collectEvaluations polynomial prime zero n (f + 1) rng acc =
      collectEvaluations polynomial prime zero n f rng1
        (if (ex.to_string_radix RADIX, ey.to_string_radix RADIX) ∈ acc then acc
         else acc ++ [(ex.to_string_radix RADIX, ey.to_string_radix RADIX)]) := by
  rw [collectEvaluations.eq_def]
  dsimp only
  rw [if_neg hnot, hnz]
  dsimp only
  rw [hev]

theorem collectEvaluations_ok (polynomial : Polynomial) (prime : Prime)
    (hp : 0 < prime.value) (n : ℕ)
    (hpoly : ∀ x : ModInteger, x.Wf prime.value →
      ∃ y, polynomial.eval x = some (x, y) ∧ y.Wf prime.value) :
    ∀ (fuel : ℕ) (rng : Rng) (acc : List Share),
      (∀ sh ∈ acc, GoodShare polynomial prime.value sh) → acc.Nodup →
      acc.length ≤ n →
      ∀ out, collectEvaluations polynomial prime (ModInteger.zero prime) n
        fuel rng acc = RunResult.ok out →
      out.length = n ∧ out.Nodup ∧
        ∀ sh ∈ out, GoodShare polynomial prime.value sh := by
  intro fuel
  induction fuel with
  | zero =>
    intro rng acc hgood hnd hlen out h
    by_cases hdone : n ≤ acc.length
    · rw [collectEvaluations_done _ _ _ _ _ _ _ hdone] at h
      have hout : acc = out := by
        cases h
        rfl
      subst hout
      exact ⟨le_antisymm hlen hdone, hnd, hgood⟩
    · rw [collectEvaluations_zero_else _ _ _ _ _ _ hdone] at h
      simp at h
  | succ f ih =>
    intro rng acc hgood hnd hlen out h
    by_cases hdone : n ≤ acc.length
    · rw [collectEvaluations_done _ _ _ _ _ _ _ hdone] at h
      have hout : acc = out := by
        cases h
        rfl
      subst hout
      exact ⟨le_antisymm hlen hdone, hnd, hgood⟩
    · cases hnz : non_zero_random prime rng (ModInteger.zero prime) (f + 1) with
      | none =>
        rw [collectEvaluations_succ_none _ _ _ _ _ _ _ hdone hnz] at h
        simp at h
      | some pair =>
        obtain ⟨x, rng1⟩ := pair
        obtain ⟨hxp, hx0, hx1, hxnz⟩ :=
          non_zero_random_some prime hp (f + 1) rng x rng1 hnz
        have hxwf : x.Wf prime.value := by
          refine ⟨?_, hx0, hx1⟩
          rw [hxp]
        obtain ⟨y, hev, hywf⟩ := hpoly x hxwf
        rw [collectEvaluations_step _ _ _ _ _ _ _ x rng1 x y hdone hnz hev] at h
        have hshgood : GoodShare polynomial prime.value
            (x.to_string_radix RADIX, y.to_string_radix RADIX) :=
          ⟨x, y, hev, hxwf, hxnz, hywf, rfl⟩
        by_cases hmem : (x.to_string_radix RADIX, y.to_string_radix RADIX) ∈ acc
        · rw [if_pos hmem] at h
          exact ih rng1 acc hgood hnd hlen out h
        · rw [if_neg hmem] at h
          refine ih rng1 _ ?_ ?_ ?_ out h
          · intro sh hsh
            rcases List.mem_append.mp hsh with hsh | hsh
            · exact hgood sh hsh
            · rw [List.mem_singleton.mp hsh]
              exact hshgood
          · rw [List.nodup_append]
            exact ⟨hnd, List.nodup_singleton _,
              fun a ha hb => hmem (by rw [← List.mem_singleton.mp hb]; exact ha)⟩
          · have : acc.length < n := not_le.mp hdone
            simp only [List.length_append, List.length_singleton]
            omega

end SharedSecrets

/-! ## Inversion of a successful split -/

namespace SharedSecrets

/-- Any `Ok` outcome of `Polynomial::from_coefficients` wraps exactly the
given coefficient list. -/
theorem from_coefficients_ok_inv (cs : List ModInteger) (q : Polynomial)
    (h : Polynomial.from_coefficients cs = Except.ok q) :
    q = Polynomial.Coefficients ⟨cs⟩ := by
  unfold Polynomial.from_coefficients CoeffPolynomial.new at h
  cases hh : cs.head? with
  | none =>
    rw [hh] at h
    cases hl : cs.getLast? with
    | none => rw [hl] at h; simp [Except.map] at h
    | some cl => rw [hl] at h; simp [Except.map] at h
  | some c0 =>
    rw [hh] at h
    cases hl : cs.getLast? with
    | none => rw [hl] at h; simp [Except.map] at h
    | some cl =>
      rw [hl] at h
      dsimp only at h
      split_ifs at h with hz
      · simp [Except.map] at h
      · simp only [Except.map, Except.ok.injEq] at h
        rw [← h]

/-- Inversion of a successful `split_secret` run: every produced share is
a good share of one coefficient polynomial over the hard-coded prime, the
share list has exactly `n` members without duplicates, and for `k > 1` the
coefficient list has `(k - 2 - 1) + 2` members headed by the reduced
secret (one fewer than the `k` the documentation promises). -/
theorem split_secret_ok (secret : List ℕ) (n k : ℕ) (rng : Rng) (fuel : ℕ)
    (shares : List Share)
    (h : split_secret secret n k rng fuel = RunResult.ok shares) :
    ∃ cs : List ModInteger, cs ≠ [] ∧ (∀ m ∈ cs, m.prime = ⟨PRIME_257⟩) ∧
      (1 < k → cs.length = (k - 2 - 1) + 2 ∧
        cs.head? = some (ModInteger.from_digits secret ⟨PRIME_257⟩)) ∧
      shares.length = n ∧ shares.Nodup ∧
      ∀ sh ∈ shares, GoodShare (Polynomial.Coefficients ⟨cs⟩) PRIME_257 sh := by
  have hP : Nat.Prime PRIME_257 :=
    prime208351617316091241234326746312124448251235562226470491514186331217050270460481
  unfold split_secret at h
  by_cases hn2 : n ≤ 2
  · rw [if_pos hn2] at h
    simp at h
  rw [if_neg hn2] at h
  by_cases hk0 : k = 0 ∨ n < k
  · rw [if_pos hk0] at h
    simp at h
  rw [if_neg hk0] at h
  dsimp only at h
  cases hsc : splitCoefficients (ModInteger.from_digits secret ⟨PRIME_257⟩) k
      ⟨PRIME_257⟩ (ModInteger.zero ⟨PRIME_257⟩) rng fuel with
  | none =>
    rw [hsc] at h
    simp at h
  | some pair =>
    obtain ⟨cs, rng1⟩ := pair
    rw [hsc] at h
    dsimp only at h
    cases hfc : Polynomial.from_coefficients cs with
    | error msg =>
      rw [hfc] at h
      simp at h
    | ok polynomial =>
      have hq : polynomial = Polynomial.Coefficients ⟨cs⟩ :=
        from_coefficients_ok_inv cs polynomial hfc
      subst hq
      rw [hfc] at h
      dsimp only at h
      have hfacts : cs ≠ [] ∧ (∀ m ∈ cs, m.prime = ⟨PRIME_257⟩) ∧
          (1 < k → cs.length = (k - 2 - 1) + 2 ∧
            cs.head? = some (ModInteger.from_digits secret ⟨PRIME_257⟩)) := by
        by_cases hk1 : 1 < k
        · obtain ⟨hlen, hhead, hprimes, _⟩ :=
            splitCoefficients_spec (ModInteger.from_digits secret ⟨PRIME_257⟩)
              k hk1 ⟨PRIME_257⟩ hP.pos rfl rng fuel cs rng1 hsc
          refine ⟨?_, hprimes, fun _ => ⟨hlen, hhead⟩⟩
          intro hc
          rw [hc] at hhead
          simp at hhead
        · unfold splitCoefficients at hsc
          rw [if_neg hk1] at hsc
          simp only [Option.some.injEq, Prod.mk.injEq] at hsc
          obtain ⟨hcs, _⟩ := hsc
          rw [← hcs]
          refine ⟨by simp, ?_, fun hcon => absurd hcon hk1⟩
          intro m hm
          rw [List.mem_singleton.mp hm]
          rfl
      obtain ⟨hcsne, hprimes, hkfacts⟩ := hfacts
      have hpoly : ∀ x : ModInteger, x.Wf (⟨PRIME_257⟩ : Prime).value →
          ∃ y, (Polynomial.Coefficients ⟨cs⟩).eval x = some (x, y) ∧
            y.Wf (⟨PRIME_257⟩ : Prime).value := by
        intro x hx
        obtain ⟨y, h1, h2, _⟩ :=
          coeff_eval_bridge PRIME_257 hP.pos cs hcsne hprimes x hx.1
        exact ⟨y, h1, h2⟩
      obtain ⟨h1, h2, h3⟩ := collectEvaluations_ok (Polynomial.Coefficients ⟨cs⟩)
        ⟨PRIME_257⟩ hP.pos n hpoly fuel rng1 []
        (fun sh hsh => absurd hsh (List.not_mem_nil sh)) List.nodup_nil
        (by simp) shares h
      exact ⟨cs, hcsne, hprimes, hkfacts, h1, h2, h3⟩

end SharedSecrets

/-! ## Recovery on good shares -/

theorem specDirectEval_cons_zero {p : ℕ} (c : ZMod p) (t : List (ZMod p)) :
    specDirectEval (c :: t) 0 = c := by
  show c + 0 * specDirectEval t 0 = c
  ring

namespace SharedSecrets

/-- Parsing the radix encoding of a well-formed modular integer over the
hard-coded prime returns it unchanged. -/
theorem parse_enc (x : ModInteger) (hx : x.Wf PRIME_257) :
    ModInteger.parse_radix (x.to_string_radix RADIX) ⟨PRIME_257⟩ RADIX =
      some x := by
  obtain ⟨hxp, hx0, hx1⟩ := hx
  unfold ModInteger.to_string_radix
  rw [parse_radix_toStringRadix PRIME_257 RADIX (by decide) x.value.toNat]
  have h1 : ((x.value.toNat : ℕ) : ℤ) = x.value := Int.toNat_of_nonneg hx0
  rw [h1, Int.emod_eq_of_lt hx0 hx1]
  cases x with
  | mk v pr =>
    simp only at hxp
    rw [hxp]

/-- The radix encoding is injective on well-formed modular integers. -/
theorem to_string_radix_inj (a b : ModInteger) (ha : a.Wf PRIME_257)
    (hb : b.Wf PRIME_257)
    (h : a.to_string_radix RADIX = b.to_string_radix RADIX) : a = b := by
  unfold ModInteger.to_string_radix at h
  have h1 := congrArg (digitsToNat RADIX) h
  rw [digitsToNat_toStringRadix RADIX (by decide) a.value.toNat,
    digitsToNat_toStringRadix RADIX (by decide) b.value.toNat] at h1
  have h2 : a.value = b.value := by
    have ha2 := Int.toNat_of_nonneg ha.2.1
    have hb2 := Int.toNat_of_nonneg hb.2.1
    omega
  have hpr : a.prime = b.prime := by rw [ha.1, hb.1]
  cases a; cases b
  simp only at h2 hpr
  rw [h2, hpr]

/-- `InterpolationPolynomial::new` succeeds on a non-empty list with
pairwise distinct nodes, keeping the full evaluation list. -/
theorem from_evals_ok (evals : List Evaluation) (hne : evals ≠ [])
    (hnd : (evals.map Prod.fst).Nodup) :
    Polynomial.from_evals evals =
      Except.ok (Polynomial.Interpolation ⟨evals⟩) := by
  unfold Polynomial.from_evals InterpolationPolynomial.new
  rw [if_neg hne, if_pos hnd]
  rfl

/-- The parse phase of `recover_secret` on a list of good shares recovers
exactly the generating evaluations. -/
theorem mapM_parse_good (polynomial : Polynomial) :
    ∀ sel : List Share,
      (∀ sh ∈ sel, GoodShare polynomial PRIME_257 sh) →
      ∃ evals : List Evaluation,
        sel.mapM (fun sh => do
          let x ← ModInteger.parse_radix sh.1 ⟨PRIME_257⟩ RADIX
          let y ← ModInteger.parse_radix sh.2 ⟨PRIME_257⟩ RADIX
          some ((x, y) : Evaluation)) = some evals ∧
        sel = evals.map (fun e =>
          (e.1.to_string_radix RADIX, e.2.to_string_radix RADIX)) ∧
        ∀ e ∈ evals, polynomial.eval e.1 = some e ∧ e.1.Wf PRIME_257 ∧
          e.1.value ≠ 0 ∧ e.2.Wf PRIME_257 := by
  intro sel
  induction sel with
  | nil =>
    intro _
    exact ⟨[], rfl, by simp, by simp⟩
  | cons sh t ih =>
    intro hgood
    obtain ⟨evals, hm, hmap, hprops⟩ :=
      ih (fun s hs => hgood s (List.mem_cons_of_mem _ hs))
    obtain ⟨x, y, hev, hxwf, hxnz, hywf, hsh⟩ :=
      hgood sh (List.mem_cons_self _ _)
    refine ⟨(x, y) :: evals, ?_, ?_, ?_⟩
    · rw [List.mapM_cons, hsh]
      simp only [Option.bind_eq_bind] at hm
      simp only [parse_enc x hxwf, parse_enc y hywf, Option.bind_eq_bind,
        Option.some_bind, hm]
      rfl
    · rw [List.map_cons, ← hmap, hsh]
    · intro e he
      rcases List.mem_cons.mp he with rfl | he2
      · exact ⟨hev, hxwf, hxnz, hywf⟩
      · exact hprops e he2

/-- Distinct evaluations that all arise from one deterministic evaluation
function have pairwise-distinct nodes. -/
theorem evals_fst_nodup (polynomial : Polynomial) (evals : List Evaluation)
    (hnd : evals.Nodup)
    (hdet : ∀ e ∈ evals, polynomial.eval e.1 = some e) :
    (evals.map Prod.fst).Nodup := by
  refine List.Nodup.map_on ?_ hnd
  intro e1 h1 e2 h2 hf
  have hev1 := hdet e1 h1
  have hev2 := hdet e2 h2
  rw [hf] at hev1
  rw [hev2] at hev1
  exact (Option.some.inj hev1).symm

/-- Recovery on any duplicate-free selection of good shares at least as
numerous as the coefficients: the run succeeds and returns the byte string
of a well-formed value interpreting to the direct evaluation at zero. -/
theorem recover_good (cs : List ModInteger) (hcsne : cs ≠ [])
    (hcs : ∀ c ∈ cs, c.prime = ⟨PRIME_257⟩)
    (sel : List Share)
    (hgood : ∀ sh ∈ sel, GoodShare (Polynomial.Coefficients ⟨cs⟩) PRIME_257 sh)
    (hnd : sel.Nodup) (hlen : cs.length ≤ sel.length) :
    ∃ w : ModInteger, recover_secret sel =
        RunResult.ok (Except.ok w.to_digits) ∧ w.Wf PRIME_257 ∧
        w.cast PRIME_257 =
          specDirectEval (cs.map fun c => (c.value : ZMod PRIME_257)) 0 := by
  have hP : Nat.Prime PRIME_257 :=
    prime208351617316091241234326746312124448251235562226470491514186331217050270460481
  obtain ⟨evals, hm, hmap, hprops⟩ :=
    mapM_parse_good (Polynomial.Coefficients ⟨cs⟩) sel hgood
  have hnde : evals.Nodup := by
    rw [hmap] at hnd
    exact List.Nodup.of_map _ hnd
  have hndf : (evals.map Prod.fst).Nodup :=
    evals_fst_nodup (Polynomial.Coefficients ⟨cs⟩) evals hnde
      (fun e he => (hprops e he).1)
  have hlene : cs.length ≤ evals.length := by
    rw [hmap, List.length_map] at hlen
    exact hlen
  have hne : evals ≠ [] := by
    intro hc
    rw [hc] at hlene
    simp at hlene
    exact hcsne hlene
  obtain ⟨w, hweval, hwwf, hwcast⟩ := interp_exactness PRIME_257 hP cs hcsne hcs
    evals (fun e he => (hprops e he).2.1) hlene hndf
    (fun e he => (hprops e he).1) (ModInteger.zero ⟨PRIME_257⟩) rfl
  refine ⟨w, ?_, hwwf, ?_⟩
  · unfold recover_secret
    dsimp only
    rw [hm]
    dsimp only
    rw [from_evals_ok evals hne hndf]
    dsimp only
    have hpe : (Polynomial.Interpolation ⟨evals⟩).eval
        (ModInteger.zero ⟨PRIME_257⟩) = some (ModInteger.zero ⟨PRIME_257⟩, w) :=
      hweval
    rw [hpe]
  · rw [hwcast]
    show specDirectEval _ (((0 : ℤ) : ZMod PRIME_257)) = _
    rw [Int.cast_zero]

end SharedSecrets

/-! ## The claims -/

namespace SharedSecrets

instance (p : ℕ) (m : ModInteger) : Decidable (m.Wf p) :=
  inferInstanceAs (Decidable (m.prime = ⟨p⟩ ∧ 0 ≤ m.value ∧ m.value < (p : ℤ)))

/-- A well-formed non-zero value interprets to a non-zero field element. -/
theorem wf_cast_ne_zero (p : ℕ) (hp : 0 < p) (b : ModInteger)
    (hb : b.Wf p) (hbz : b.value ≠ 0) : b.cast p ≠ 0 := by
  intro hc
  apply hbz
  unfold ModInteger.cast at hc
  refine intCast_zmod_inj p b.value 0 hb.2.1 hb.2.2 le_rfl
    (by exact_mod_cast hp) ?_
  rw [hc]
  simp

/-- C2: the coefficient list built inside `split_secret` for a threshold
`k > 2` has `k - 1` entries, never the claimed `k`: the `for _ in 1..k-2`
loop contributes `k - 3` middle draws instead of `k - 2`. -/
theorem claim_C2_coefficient_count (secret_number : ModInteger) (k : ℕ)
    (hk : 2 < k) (prime : Prime) (hp : 0 < prime.value)
    (hsec : secret_number.prime = prime) (rng : Rng) (fuel : ℕ)
    (cs : List ModInteger) (rng2 : Rng)
    (h : splitCoefficients secret_number k prime (ModInteger.zero prime)
      rng fuel = some (cs, rng2)) :
    cs.length = k - 1 ∧ cs.length ≠ k := by
  obtain ⟨hlen, _, _, _⟩ := splitCoefficients_spec secret_number k (by omega)
    prime hp hsec rng fuel cs rng2 h
  omega

theorem claim_C2_coefficient_count_witness :
    ([⟨0, ⟨7⟩⟩, ⟨1, ⟨7⟩⟩] : List ModInteger).length = 3 - 1 ∧
    ([⟨0, ⟨7⟩⟩, ⟨1, ⟨7⟩⟩] : List ModInteger).length ≠ 3 :=
  claim_C2_coefficient_count ⟨0, ⟨7⟩⟩ 3 (by decide) ⟨7⟩ (by decide) rfl
    ⟨fun i => i + 1, 0⟩ 5 [⟨0, ⟨7⟩⟩, ⟨1, ⟨7⟩⟩] ⟨fun i => i + 1, 1⟩ (by rfl)

/-- C3: `Field::add_inverse` of the zero element returns `prime - 0`
unreduced, so the result's value equals the prime itself and escapes the
claimed range invariant `0 <= value < prime.value`. -/
theorem claim_C3_range_violation :
    (ModInteger.zero ⟨PRIME_257⟩).add_inverse.value = (PRIME_257 : ℤ) ∧
    ¬ ((ModInteger.zero ⟨PRIME_257⟩).add_inverse.value < (PRIME_257 : ℤ)) := by
  constructor
  · show (PRIME_257 : ℤ) - 0 = (PRIME_257 : ℤ)
    ring
  · show ¬ ((PRIME_257 : ℤ) - 0 < (PRIME_257 : ℤ))
    simp

/-- C4: field algebra over a true prime: subtraction agrees with adding
the additive inverse, division agrees with multiplying by the
multiplicative inverse, and the relative zero and one are neutral. -/
theorem claim_C4_field_algebra (p : ℕ) (hp : Nat.Prime p) (a b : ModInteger)
    (ha : a.Wf p) (hb : b.Wf p) (hbz : b.value ≠ 0) :
    a.sub b = a.add b.add_inverse ∧
    (∃ bi, b.mul_inverse = some bi ∧ a.div b = a.mul bi) ∧
    a.add a.field_zero = some a ∧
    a.mul a.one = some a := by
  have hbcast : b.cast p ≠ 0 := wf_cast_ne_zero p hp.pos b hb hbz
  have hbai : b.add_inverse = ⟨(p : ℤ) - b.value, ⟨p⟩⟩ := by
    unfold ModInteger.add_inverse
    rw [hb.1]
  refine ⟨?_, ?_, ?_, ?_⟩
  · rw [hbai, ModInteger.sub_eq p a b ha.1 hb.1,
      ModInteger.add_eq p a ⟨(p : ℤ) - b.value, ⟨p⟩⟩ ha.1 rfl]
    simp only [Option.some.injEq, ModInteger.mk.injEq]
    refine ⟨?_, trivial⟩
    rw [show a.value + ((p : ℤ) - b.value) = (a.value - b.value) + (p : ℤ) * 1
      from by ring, Int.add_mul_emod_self_left]
  · obtain ⟨w, hw, hwcast⟩ := invert_cast p hp b.value hbcast
    have hbpv : b.prime.value = p := by rw [hb.1]
    have hmi : b.mul_inverse = some ⟨((w : ℕ) : ℤ), b.prime⟩ := by
      unfold ModInteger.mul_inverse
      rw [hbpv, hw]
      rfl
    have hdiv : a.div b =
        some ⟨(a.value * ((w : ℕ) : ℤ)) % (a.prime.value : ℤ), a.prime⟩ := by
      unfold ModInteger.div
      rw [if_neg hbz, if_neg (by rw [ha.1, hb.1]; simp), hbpv, hw]
      rfl
    have hmul : a.mul ⟨((w : ℕ) : ℤ), b.prime⟩ =
        some ⟨(a.value * ((w : ℕ) : ℤ)) % (a.prime.value : ℤ), a.prime⟩ := by
      unfold ModInteger.mul
      rw [if_neg (by rw [ha.1, hb.1]; simp)]
    exact ⟨⟨((w : ℕ) : ℤ), b.prime⟩, hmi, by rw [hdiv, hmul]⟩
  · unfold ModInteger.add ModInteger.field_zero
    rw [if_neg (by simp)]
    have hav : (a.value + (0 : ℤ)) % (a.prime.value : ℤ) = a.value := by
      rw [add_zero, ha.1]
      exact Int.emod_eq_of_lt ha.2.1 ha.2.2
    rw [hav]
  · unfold ModInteger.mul ModInteger.one
    rw [if_neg (by simp)]
    have hav : (a.value * (1 : ℤ)) % (a.prime.value : ℤ) = a.value := by
      rw [mul_one, ha.1]
      exact Int.emod_eq_of_lt ha.2.1 ha.2.2
    rw [hav]

theorem claim_C4_field_algebra_witness :
    (⟨3, ⟨7⟩⟩ : ModInteger).sub ⟨2, ⟨7⟩⟩ =
      (⟨3, ⟨7⟩⟩ : ModInteger).add (⟨2, ⟨7⟩⟩ : ModInteger).add_inverse ∧
    (∃ bi, (⟨2, ⟨7⟩⟩ : ModInteger).mul_inverse = some bi ∧
      (⟨3, ⟨7⟩⟩ : ModInteger).div ⟨2, ⟨7⟩⟩ =
        (⟨3, ⟨7⟩⟩ : ModInteger).mul bi) ∧
    (⟨3, ⟨7⟩⟩ : ModInteger).add (⟨3, ⟨7⟩⟩ : ModInteger).field_zero =
      some ⟨3, ⟨7⟩⟩ ∧
    (⟨3, ⟨7⟩⟩ : ModInteger).mul (⟨3, ⟨7⟩⟩ : ModInteger).one = some ⟨3, ⟨7⟩⟩ :=
  claim_C4_field_algebra 7 (by norm_num) ⟨3, ⟨7⟩⟩ ⟨2, ⟨7⟩⟩ (by decide)
    (by decide) (by decide)

/-- C5: the Horner fold of `CoeffPolynomial::eval` returns `(x, y)` with
`y` the direct field evaluation `a0 + a1*x + ... + ad*x^d`. -/
theorem claim_C5_horner (p : ℕ) (hp : Nat.Prime p) (cs : List ModInteger)
    (hne : cs ≠ []) (hcs : ∀ c ∈ cs, c.prime = ⟨p⟩)
    (hlast : ∃ last, cs.getLast? = some last ∧ last.value ≠ 0)
    (x : ModInteger) (hx : x.prime = ⟨p⟩) :
    ∃ y, CoeffPolynomial.eval ⟨cs⟩ x = some (x, y) ∧
      y.cast p = specDirectEval (cs.map fun c => (c.value : ZMod p))
        (x.value : ZMod p) := by
  obtain ⟨y, h1, _, h3⟩ := coeff_eval_bridge p hp.pos cs hne hcs x hx
  exact ⟨y, h1, h3⟩

theorem claim_C5_horner_witness :
    ∃ y, CoeffPolynomial.eval ⟨[⟨1, ⟨7⟩⟩, ⟨2, ⟨7⟩⟩]⟩ ⟨3, ⟨7⟩⟩ =
        some (⟨3, ⟨7⟩⟩, y) ∧
      y.cast 7 = specDirectEval
        (([⟨1, ⟨7⟩⟩, ⟨2, ⟨7⟩⟩] : List ModInteger).map
          fun c => (c.value : ZMod 7))
        (((⟨3, ⟨7⟩⟩ : ModInteger).value : ZMod 7)) :=
  claim_C5_horner 7 (by norm_num) [⟨1, ⟨7⟩⟩, ⟨2, ⟨7⟩⟩] (by decide)
    (by decide) ⟨⟨2, ⟨7⟩⟩, rfl, by decide⟩ ⟨3, ⟨7⟩⟩ rfl

/-- C6: interpolation through enough evaluations of a coefficient
polynomial over a true prime evaluates everywhere (the field zero
included) to the same value as the coefficient polynomial itself. -/
theorem claim_C6_lagrange_exact (p : ℕ) (hp : Nat.Prime p)
    (cs : List ModInteger) (hcsne : cs ≠ [])
    (hcs : ∀ c ∈ cs, c.prime = ⟨p⟩) (evals : List Evaluation)
    (hx : ∀ e ∈ evals, e.1.Wf p) (hlen : cs.length ≤ evals.length)
    (hnd : (evals.map Prod.fst).Nodup)
    (hev : ∀ e ∈ evals, CoeffPolynomial.eval ⟨cs⟩ e.1 = some e)
    (z : ModInteger) (hz : z.prime = ⟨p⟩) :
    ∃ w, InterpolationPolynomial.eval ⟨evals⟩ z = some (z, w) ∧
      CoeffPolynomial.eval ⟨cs⟩ z = some (z, w) := by
  obtain ⟨w, hw, hwwf, hwc⟩ :=
    interp_exactness p hp cs hcsne hcs evals hx hlen hnd hev z hz
  obtain ⟨y, hy, hywf, hyc⟩ := coeff_eval_bridge p hp.pos cs hcsne hcs z hz
  have hwy : w = y :=
    ModInteger.Wf.cast_inj p w y hwwf hywf (by rw [hwc, hyc])
  subst hwy
  exact ⟨w, hw, hy⟩

theorem claim_C6_lagrange_exact_witness :
    ∃ w, InterpolationPolynomial.eval
        ⟨[(⟨1, ⟨7⟩⟩, ⟨3, ⟨7⟩⟩), (⟨2, ⟨7⟩⟩, ⟨5, ⟨7⟩⟩), (⟨3, ⟨7⟩⟩, ⟨0, ⟨7⟩⟩)]⟩
        ⟨0, ⟨7⟩⟩ = some (⟨0, ⟨7⟩⟩, w) ∧
      CoeffPolynomial.eval ⟨[⟨1, ⟨7⟩⟩, ⟨2, ⟨7⟩⟩]⟩ ⟨0, ⟨7⟩⟩ =
        some (⟨0, ⟨7⟩⟩, w) :=
  claim_C6_lagrange_exact 7 (by norm_num) [⟨1, ⟨7⟩⟩, ⟨2, ⟨7⟩⟩] (by decide)
    (by decide)
    [(⟨1, ⟨7⟩⟩, ⟨3, ⟨7⟩⟩), (⟨2, ⟨7⟩⟩, ⟨5, ⟨7⟩⟩), (⟨3, ⟨7⟩⟩, ⟨0, ⟨7⟩⟩)]
    (by decide) (by decide) (by decide) (by decide) ⟨0, ⟨7⟩⟩ rfl

/-- C7: `Polynomial::from_evals` returns a recoverable `ValueError`
exactly when the evaluation list is empty or two evaluations share a
node, and otherwise succeeds keeping the full evaluation list. -/
theorem claim_C7_from_evals (evals : List Evaluation) :
    ((∃ e, Polynomial.from_evals evals = Except.error e) ↔
      (evals = [] ∨ ¬ (evals.map Prod.fst).Nodup)) ∧
    (Polynomial.from_evals evals =
        Except.error ⟨"No evaluations were provided"⟩ ∨
     Polynomial.from_evals evals =
        Except.error ⟨"Duplicated x across Evaluation"⟩ ∨
     Polynomial.from_evals evals =
        Except.ok (Polynomial.Interpolation ⟨evals⟩)) := by
  unfold Polynomial.from_evals InterpolationPolynomial.new
  by_cases h1 : evals = []
  · rw [if_pos h1]
    exact ⟨⟨fun _ => Or.inl h1,
      fun _ => ⟨⟨"No evaluations were provided"⟩, rfl⟩⟩, Or.inl rfl⟩
  · rw [if_neg h1]
    by_cases h2 : (evals.map Prod.fst).Nodup
    · rw [if_pos h2]
      refine ⟨⟨?_, ?_⟩, Or.inr (Or.inr rfl)⟩
      · rintro ⟨e, he⟩
        simp [Except.map] at he
      · rintro (hc | hc)
        · exact absurd hc h1
        · exact absurd h2 hc
    · rw [if_neg h2]
      exact ⟨⟨fun _ => Or.inr h2,
        fun _ => ⟨⟨"Duplicated x across Evaluation"⟩, rfl⟩⟩,
        Or.inr (Or.inl rfl)⟩

/-- C8 (amended): `+`, `-`, `*` and the compound assignments panic exactly
on a modulus mismatch (`Prime` equality compares the wrapped values); `/`
and `/=` additionally panic on a zero divisor even when the moduli
agree. -/
theorem claim_C8_mismatch (p q : ℕ) (hp : Nat.Prime p) (hq : Nat.Prime q)
    (a b : ModInteger) (ha : a.Wf p) (hb : b.Wf q) :
    (a.add b = none ↔ a.prime ≠ b.prime) ∧
    (a.sub b = none ↔ a.prime ≠ b.prime) ∧
    (a.mul b = none ↔ a.prime ≠ b.prime) ∧
    (a.div b = none ↔ (b.value = 0 ∨ a.prime ≠ b.prime)) ∧
    a.add_assign b = a.add b ∧ a.sub_assign b = a.sub b ∧
    a.mul_assign b = a.mul b ∧ a.div_assign b = a.div b := by
  refine ⟨?_, ?_, ?_, ?_, rfl, rfl, rfl, ?_⟩
  · unfold ModInteger.add
    by_cases hpr : a.prime ≠ b.prime
    · rw [if_pos hpr]; simp [hpr]
    · rw [if_neg hpr]; simp [hpr]
  · unfold ModInteger.sub
    by_cases hpr : a.prime ≠ b.prime
    · rw [if_pos hpr]; simp [hpr]
    · rw [if_neg hpr]; simp [hpr]
  · unfold ModInteger.mul
    by_cases hpr : a.prime ≠ b.prime
    · rw [if_pos hpr]; simp [hpr]
    · rw [if_neg hpr]; simp [hpr]
  · unfold ModInteger.div
    by_cases hz : b.value = 0
    · rw [if_pos hz]; simp [hz]
    · rw [if_neg hz]
      by_cases hpr : a.prime ≠ b.prime
      · rw [if_pos hpr]; simp [hz, hpr]
      · rw [if_neg hpr]
        have hbcast : b.cast q ≠ 0 := wf_cast_ne_zero q hq.pos b hb hz
        obtain ⟨w, hw, _⟩ := invert_cast q hq b.value hbcast
        rw [show b.prime.value = q from by rw [hb.1], hw]
        simp [hz, hpr]
  · unfold ModInteger.div_assign ModInteger.div
    split_ifs <;> rfl

theorem claim_C8_mismatch_witness :
    ((⟨3, ⟨7⟩⟩ : ModInteger).add ⟨2, ⟨7⟩⟩ = none ↔
      (⟨3, ⟨7⟩⟩ : ModInteger).prime ≠ (⟨2, ⟨7⟩⟩ : ModInteger).prime) ∧
    ((⟨3, ⟨7⟩⟩ : ModInteger).sub ⟨2, ⟨7⟩⟩ = none ↔
      (⟨3, ⟨7⟩⟩ : ModInteger).prime ≠ (⟨2, ⟨7⟩⟩ : ModInteger).prime) ∧
    ((⟨3, ⟨7⟩⟩ : ModInteger).mul ⟨2, ⟨7⟩⟩ = none ↔
      (⟨3, ⟨7⟩⟩ : ModInteger).prime ≠ (⟨2, ⟨7⟩⟩ : ModInteger).prime) ∧
    ((⟨3, ⟨7⟩⟩ : ModInteger).div ⟨2, ⟨7⟩⟩ = none ↔
      ((⟨2, ⟨7⟩⟩ : ModInteger).value = 0 ∨
        (⟨3, ⟨7⟩⟩ : ModInteger).prime ≠ (⟨2, ⟨7⟩⟩ : ModInteger).prime)) ∧
    (⟨3, ⟨7⟩⟩ : ModInteger).add_assign ⟨2, ⟨7⟩⟩ =
      (⟨3, ⟨7⟩⟩ : ModInteger).add ⟨2, ⟨7⟩⟩ ∧
    (⟨3, ⟨7⟩⟩ : ModInteger).sub_assign ⟨2, ⟨7⟩⟩ =
      (⟨3, ⟨7⟩⟩ : ModInteger).sub ⟨2, ⟨7⟩⟩ ∧
    (⟨3, ⟨7⟩⟩ : ModInteger).mul_assign ⟨2, ⟨7⟩⟩ =
      (⟨3, ⟨7⟩⟩ : ModInteger).mul ⟨2, ⟨7⟩⟩ ∧
    (⟨3, ⟨7⟩⟩ : ModInteger).div_assign ⟨2, ⟨7⟩⟩ =
      (⟨3, ⟨7⟩⟩ : ModInteger).div ⟨2, ⟨7⟩⟩ :=
  claim_C8_mismatch 7 7 (by norm_num) (by norm_num) ⟨3, ⟨7⟩⟩ ⟨2, ⟨7⟩⟩
    (by decide) (by decide)

/-- C8 (counterexample): division by the zero element panics although the
two operands carry the same `Prime` value. -/
theorem claim_C8_counterexample :
    (⟨3, ⟨7⟩⟩ : ModInteger).div ⟨0, ⟨7⟩⟩ = none ∧
    (⟨3, ⟨7⟩⟩ : ModInteger).prime = (⟨0, ⟨7⟩⟩ : ModInteger).prime :=
  ⟨rfl, rfl⟩

/-- C10: with `k = 1` and a secret whose big-endian value is divisible by
the hard-coded prime, `split_secret` panics while constructing the
coefficient polynomial: its single coefficient is the field zero. -/
theorem claim_C10_zero_secret_k1 (secret : List ℕ)
    (hs : digitsToNat 256 secret % PRIME_257 = 0)
    (n : ℕ) (hn : 2 < n) (rng : Rng) (fuel : ℕ) :
    split_secret secret n 1 rng fuel =
      RunResult.panicked ("Last coefficient is zero") := by
  have hv : ((digitsToNat 256 secret : ℕ) : ℤ) % ((PRIME_257 : ℕ) : ℤ) = 0 := by
    exact_mod_cast hs
  have hfd : ModInteger.from_digits secret ⟨PRIME_257⟩ = ⟨0, ⟨PRIME_257⟩⟩ := by
    unfold ModInteger.from_digits
    dsimp only
    rw [hv]
  unfold split_secret
  rw [if_neg (by omega), if_neg (by omega)]
  dsimp only
  rw [hfd]
  have hsc : splitCoefficients (⟨0, ⟨PRIME_257⟩⟩ : ModInteger) 1 ⟨PRIME_257⟩
      (ModInteger.zero ⟨PRIME_257⟩) rng fuel =
      some ([⟨0, ⟨PRIME_257⟩⟩], rng) := by
    unfold splitCoefficients
    rw [if_neg (by omega)]
  rw [hsc]
  dsimp only
  have hnew : Polynomial.from_coefficients [(⟨0, ⟨PRIME_257⟩⟩ : ModInteger)] =
      Except.error ("Last coefficient is zero") := rfl
  rw [hnew]

theorem claim_C10_zero_secret_k1_witness :
    split_secret [] 3 1 ⟨fun i => i + 1, 0⟩ 0 =
      RunResult.panicked ("Last coefficient is zero") :=
  claim_C10_zero_secret_k1 [] (by decide) 3 (by decide) ⟨fun i => i + 1, 0⟩ 0

end SharedSecrets

namespace SharedSecrets

/-- C1 (amended): for every byte sequence of at most 32 bytes with no
leading zero byte and every `n`, `k` with `2 < k ≤ n`, recovering any `k`
distinct shares of a successful `split_secret` run returns exactly the
original byte sequence. -/
theorem claim_C1_round_trip (secret : List ℕ)
    (hbytes : ∀ b ∈ secret, b < 256) (hslen : secret.length ≤ 32)
    (hhead : secret.head? ≠ some 0)
    (n k : ℕ) (hk : 2 < k) (hkn : k ≤ n)
    (rng : Rng) (fuel : ℕ) (shares : List Share)
    (hsplit : split_secret secret n k rng fuel = RunResult.ok shares)
    (sel : List Share) (hsel : sel.Sublist shares) (hsellen : sel.length = k) :
    recover_secret sel = RunResult.ok (Except.ok secret) := by
  obtain ⟨cs, hcsne, hcprimes, hkfacts, hshlen, hsnd, hsgood⟩ :=
    split_secret_ok secret n k rng fuel shares hsplit
  obtain ⟨hclen, hchead⟩ := hkfacts (by omega)
  have hgoodsel : ∀ sh ∈ sel,
      GoodShare (Polynomial.Coefficients ⟨cs⟩) PRIME_257 sh :=
    fun sh hsh => hsgood sh (hsel.subset hsh)
  have hndsel : sel.Nodup := hsnd.sublist hsel
  have hlencs : cs.length ≤ sel.length := by omega
  obtain ⟨w, hrec, hwwf, hwcast⟩ :=
    recover_good cs hcsne hcprimes sel hgoodsel hndsel hlencs
  have hvlt : digitsToNat 256 secret < PRIME_257 := by
    have h1 : digitsToNat 256 secret < 256 ^ secret.length :=
      digitsToNat_lt_pow 256 (by norm_num) secret hbytes
    have h2 : (256 : ℕ) ^ secret.length ≤ 256 ^ 32 :=
      Nat.pow_le_pow_right (by norm_num) hslen
    have h3 : (256 : ℕ) ^ 32 < PRIME_257 := by norm_num [PRIME_257]
    omega
  obtain ⟨c0, t, rfl⟩ := List.exists_cons_of_ne_nil hcsne
  have hc0 : c0 = ModInteger.from_digits secret ⟨PRIME_257⟩ := by
    simpa using hchead
  subst hc0
  have hcast2 : w.cast PRIME_257 =
      ((digitsToNat 256 secret : ℕ) : ZMod PRIME_257) := by
    rw [hwcast, List.map_cons, specDirectEval_cons_zero]
    unfold ModInteger.from_digits
    dsimp only
    rw [intCast_emod_zmod]
    push_cast
    rfl
  have hwval : w.value = ((digitsToNat 256 secret : ℕ) : ℤ) := by
    apply intCast_zmod_inj PRIME_257 _ _ hwwf.2.1 hwwf.2.2
      (Int.natCast_nonneg _) (by exact_mod_cast hvlt)
    rw [show ((w.value : ℤ) : ZMod PRIME_257) = w.cast PRIME_257 from rfl,
      hcast2]
    push_cast
    rfl
  have hdig : w.to_digits = secret := by
    unfold ModInteger.to_digits
    rw [hwval]
    rw [show (((digitsToNat 256 secret : ℕ) : ℤ)).toNat =
      digitsToNat 256 secret from by omega]
    exact natToDigits_digitsToNat 256 (by norm_num) secret hbytes hhead _
      le_rfl
  rw [hdig] at hrec
  exact hrec

theorem claim_C1_round_trip_witness :
    recover_secret [([2], [4, 35, 27, 20, 30, 24]),
        ([3], [4, 35, 27, 20, 30, 25]), ([4], [4, 35, 27, 20, 30, 26])] =
      RunResult.ok (Except.ok [17, 255, 53, 78]) :=
  claim_C1_round_trip [17, 255, 53, 78] (by decide) (by decide) (by decide)
    3 3 (by decide) (by decide) ⟨fun i => i + 1, 0⟩ 10
    [([2], [4, 35, 27, 20, 30, 24]), ([3], [4, 35, 27, 20, 30, 25]),
      ([4], [4, 35, 27, 20, 30, 26])] (by rfl)
    [([2], [4, 35, 27, 20, 30, 24]), ([3], [4, 35, 27, 20, 30, 25]),
      ([4], [4, 35, 27, 20, 30, 26])] (List.Sublist.refl _) (by rfl)

/-- C1 (counterexample): the one-byte secret `[0]` splits with
`n = k = 3`, but recovering all three shares returns the empty byte
string, not `[0]`: `to_digits` drops leading zero bytes. -/
theorem claim_C1_counterexample :
    split_secret [0] 3 3 ⟨fun i => i + 1, 0⟩ 10 =
      RunResult.ok [([2], [2]), ([3], [3]), ([4], [4])] ∧
    recover_secret [([2], [2]), ([3], [3]), ([4], [4])] =
      RunResult.ok (Except.ok []) ∧
    ([] : List ℕ) ≠ [0] :=
  ⟨rfl, rfl, by decide⟩

/-- C9: a successful `split_secret` run returns exactly `n` shares whose
`x` components are pairwise distinct and decode to non-zero field
elements. -/
theorem claim_C9_share_count (secret : List ℕ) (n k : ℕ)
    (hn : 2 < n) (hk : 0 < k) (hkn : k ≤ n)
    (rng : Rng) (fuel : ℕ) (shares : List Share)
    (hsplit : split_secret secret n k rng fuel = RunResult.ok shares) :
    shares.length = n ∧ (shares.map Prod.fst).Nodup ∧
      ∀ sh ∈ shares, ∃ x : ModInteger,
        ModInteger.parse_radix sh.1 ⟨PRIME_257⟩ RADIX = some x ∧
          x.value ≠ 0 := by
  obtain ⟨cs, hcsne, hcprimes, _, hshlen, hsnd, hsgood⟩ :=
    split_secret_ok secret n k rng fuel shares hsplit
  refine ⟨hshlen, ?_, ?_⟩
  · refine List.Nodup.map_on ?_ hsnd
    intro s1 h1 s2 h2 hf
    obtain ⟨x1, y1, he1, hw1, _, hwy1, hs1⟩ := hsgood s1 h1
    obtain ⟨x2, y2, he2, hw2, _, hwy2, hs2⟩ := hsgood s2 h2
    have hx12 : x1 = x2 := by
      apply to_string_radix_inj x1 x2 hw1 hw2
      have e1 : s1.1 = x1.to_string_radix RADIX := by rw [hs1]
      have e2 : s2.1 = x2.to_string_radix RADIX := by rw [hs2]
      rw [← e1, ← e2, hf]
    subst hx12
    have hy12 : y1 = y2 := by
      rw [he1] at he2
      exact (Prod.ext_iff.mp (Option.some.inj he2)).2
    rw [hs1, hs2, hy12]
  · intro sh hsh
    obtain ⟨x, y, he, hw, hxnz, hwy, hs⟩ := hsgood sh hsh
    refine ⟨x, ?_, hxnz⟩
    rw [hs]
    exact parse_enc x hw

theorem claim_C9_share_count_witness :
    ([([2], [2]), ([3], [3]), ([4], [4])] : List Share).length = 3 ∧
    (([([2], [2]), ([3], [3]), ([4], [4])] : List Share).map
      Prod.fst).Nodup ∧
    ∀ sh ∈ ([([2], [2]), ([3], [3]), ([4], [4])] : List Share),
      ∃ x : ModInteger,
        ModInteger.parse_radix sh.1 ⟨PRIME_257⟩ RADIX = some x ∧
          x.value ≠ 0 :=
  claim_C9_share_count [0] 3 3 (by decide) (by decide) (by decide)
    ⟨fun i => i + 1, 0⟩ 10 [([2], [2]), ([3], [3]), ([4], [4])] (by rfl)

end SharedSecrets
